import Mathlib

/-!
# Verification of the `algocol` sorting/search toolkit

Shallow embedding of the algorithms in `src/` (Rust): sequences are `List α`,
machine indices are `Nat`, the comparator is an explicit `α → α → Ordering`
function, and every fallible operation returns `Except` — a Rust `Err` carries
its `AgcErrorKind`, and a Rust panic (out-of-bounds slice index, `step_by(0)`)
is modelled by the distinguished `Halt.panicked` outcome.  Mutating operations
return the final state of the slice also on the error path, mirroring the
`&mut [T]` argument that the caller keeps after an `Err`.
-/

namespace Algocol

/-- The error kinds of `src/error/mod.rs` (`AgcErrorKind`). -/
inductive AgcErrorKind where
  | outOfBounds
  | wrongOrder
  | unordered
  | alreadyExists
  | sameNode
  | notFound
  | other
deriving DecidableEq, Repr

/-- How a fallible operation can halt: with a Rust `Err(AgcError {kind, ..})`,
with a Rust panic (an out-of-bounds index, an arithmetic underflow with debug
assertions, or `step_by(0)`), or — only in this embedding — `diverged`, the
marker used when the fuel supplied for a source `while` loop runs out.  The
fuel chosen below provably suffices for every comparator that is consistent
with an order, so `diverged` models the genuine non-termination such a loop
exhibits in Rust under an inconsistent comparator. -/
inductive Halt where
  | panicked
  | diverged
  | err (k : AgcErrorKind)
deriving DecidableEq, Repr

/-- Rust's panicking slice index `slice[i]`: `ok` the element when in bounds,
`Halt.panicked` otherwise. -/
def getE (l : List α) (i : Nat) : Except Halt α :=
  if h : i < l.length then .ok (l.get ⟨i, h⟩) else .error .panicked

/-- Rust's `slice.swap(i, j)` (panics when an index is out of bounds). -/
def swapE (l : List α) (i j : Nat) : Except Halt (List α) :=
  if hi : i < l.length then
    if hj : j < l.length then
      .ok ((l.set i (l.get ⟨j, hj⟩)).set j (l.get ⟨i, hi⟩))
    else .error .panicked
  else .error .panicked

namespace priority

/-- `src/utils/priority.rs` `is_lt`. -/
def is_lt : Ordering → Bool
  | .lt => true
  | _ => false

/-- `src/utils/priority.rs` `is_le`. -/
def is_le : Ordering → Bool
  | .lt => true
  | .eq => true
  | _ => false

/-- `src/utils/priority.rs` `is_eq`. -/
def is_eq : Ordering → Bool
  | .eq => true
  | _ => false

/-- `src/utils/priority.rs` `is_ge`. -/
def is_ge : Ordering → Bool
  | .gt => true
  | .eq => true
  | _ => false

/-- `src/utils/priority.rs` `is_gt`. -/
def is_gt : Ordering → Bool
  | .gt => true
  | _ => false

/-- `src/utils/priority.rs` `eq` (the `Ord`-based variant used by the plain
`binarysearch`). -/
def eq [LinearOrder α] (a b : α) : Bool := is_eq (compare a b)

end priority

/-- `xs.rotate_left(1)` on a Rust sub-slice: first element moves to the back. -/
def rotl1 : List α → List α
  | [] => []
  | x :: t => t ++ [x]

/-- `xs.rotate_right(1)` on a Rust sub-slice: last element moves to the front. -/
def rotr1 (l : List α) : List α :=
  l.drop (l.length - 1) ++ l.dropLast

/-- `src/utils/slice.rs` `transfer_element`: move the element at `from` to
position `to` by rotating the inclusive sub-range between them.  Returns
`OutOfBounds` when either index is `≥ length`. -/
def transfer_element (l : List α) (frm dst : Nat) : Except AgcErrorKind (List α) :=
  let length := l.length
  if frm ≥ length ∨ dst ≥ length then .error .outOfBounds
  else if frm = dst then .ok l
  else if frm < dst then
    .ok (l.take frm ++ rotl1 ((l.drop frm).take (dst + 1 - frm)) ++ l.drop (dst + 1))
  else
    .ok (l.take dst ++ rotr1 ((l.drop dst).take (frm + 1 - dst)) ++ l.drop (frm + 1))

/-- The adjacent-pair scan of `is_sorted_by` (`src/sort/mod.rs`): `true` iff no
adjacent pair violates the requested direction (`is_gt` for ascending,
`is_lt` for descending — exactly the loop conditions of the source). -/
def sortedChain (ascending : Bool) (cmp : α → α → Ordering) : List α → Bool
  | [] => true
  | [_] => true
  | a :: b :: t =>
    (if ascending then !priority.is_gt (cmp a b) else !priority.is_lt (cmp a b))
      && sortedChain ascending cmp (b :: t)

/-- `src/sort/mod.rs` `is_sorted_by`. -/
def is_sorted_by (l : List α) (ascending : Bool) (cmp : α → α → Ordering) : Bool :=
  if l.length ≤ 1 then true else sortedChain ascending cmp l

/-- `src/sort/mod.rs` `is_sorted` (the `Ord` default form). -/
def is_sorted [LinearOrder α] (l : List α) (ascending : Bool) : Bool :=
  is_sorted_by l ascending compare

/-- The element-preservation property of a sort call on the slice `l`: the
slice state after the call — the `Ok` payload, or the state carried by an
`Err` (the slice the caller still holds, since the Rust functions mutate
`&mut [T]` in place) — is a permutation of `l`, i.e. has the same multiset of
elements. -/
def exPerm (r : Except (Halt × List α) (List α)) (l : List α) : Prop :=
  match r with
  | .ok l₂ => l₂.Perm l
  | .error (_, l₂) => l₂.Perm l

section Merge

variable {α : Type _} (ascending : Bool) (cmp : α → α → Ordering)

/-- The merge loop of `src/sort/mergesort.rs` `merge` (lines 103–123): `left`
is fixed, `deposit`/`ls`/`rs` are the `deposit_size`/`left_size`/`right_size`
counters.  Each iteration either lets the next left-run element stand, or
rotates the next right-run candidate into the deposit position via
`transfer_element`.  Slice indexing can panic, as in Rust. -/
def mergeLoop (left : Nat) (l : List α) (deposit ls rs : Nat) :
    Except (Halt × List α) (List α) :=
  if _h : 0 < ls ∧ 0 < rs then
    match getE l (left + deposit) with
    | .error hl => .error (hl, l)
    | .ok a =>
      match getE l (left + deposit + ls) with
      | .error hl => .error (hl, l)
      | .ok b =>
        if priority.is_lt (cmp a b) = ascending then
          mergeLoop left l (deposit + 1) (ls - 1) rs
        else
          match transfer_element l (left + deposit + ls) (left + deposit) with
          | .error k => .error (.err k, l)
          | .ok l' => mergeLoop left l' (deposit + 1) ls (rs - 1)
  else .ok l
termination_by ls + rs
decreasing_by all_goals omega

/-- `src/sort/mergesort.rs` `merge`: error checks (note: the source compares
the indices with `> length`, not `≥ length`), then the in-place merge loop of
the runs `[left, middle]` and `[middle+1, right]`. -/
def merge (l : List α) (left middle right : Nat) :
    Except (Halt × List α) (List α) :=
  if left > middle then .error (.err .wrongOrder, l)
  else if middle > right then .error (.err .wrongOrder, l)
  else
    let length := l.length
    if left > length then .error (.err .outOfBounds, l)
    else if middle > length then .error (.err .outOfBounds, l)
    else if right > length then .error (.err .outOfBounds, l)
    else mergeLoop ascending cmp left l 0 (middle - left + 1) (right - middle)

/-- The boolean test under which the merge loop lets the left-run element
stand (`priority::is_lt(compare(a, b)) == ascending`, mergesort.rs line
107–112): strictly-less ascending, at-least descending.  `merge` in place
computes exactly `List.merge` of the two runs under this test; see
`merge_spec`. -/
def mergeLE (ascending : Bool) (cmp : α → α → Ordering) (a b : α) : Bool :=
  priority.is_lt (cmp a b) == ascending

end Merge

section QuadraticSorts

variable {α : Type _} (ascending : Bool) (cmp : α → α → Ordering)

/-- The `for index in 1..length` pass of `bubblesort_by`
(`src/sort/bubblesort.rs`), with the `sorted` flag threaded through.  The
source has one loop body per direction; they differ only in the comparison
predicate (`is_gt` ascending, `is_lt` descending), written here as one body. -/
def bubblePass (length : Nat) (l : List α) (index : Nat) (sorted : Bool) :
    Except (Halt × List α) (List α × Bool) :=
  if _h : index < length then
    match getE l (index - 1) with
    | .error hl => .error (hl, l)
    | .ok a =>
      match getE l index with
      | .error hl => .error (hl, l)
      | .ok b =>
        if (if ascending then priority.is_gt (cmp a b) else priority.is_lt (cmp a b)) then
          match swapE l index (index - 1) with
          | .error hl => .error (hl, l)
          | .ok l' => bubblePass length l' (index + 1) false
        else bubblePass length l (index + 1) sorted
  else .ok (l, sorted)
termination_by length - index
decreasing_by all_goals omega

/-- The `while !sorted` loop of `bubblesort_by`, by fuel (see `Halt.diverged`). -/
def bubbleLoop (length : Nat) : Nat → List α → Except (Halt × List α) (List α)
  | 0, l => .error (.diverged, l)
  | fuel + 1, l =>
    match bubblePass ascending cmp length l 1 true with
    | .error e => .error e
    | .ok (l', sorted) => if sorted then .ok l' else bubbleLoop length fuel l'

/-- `src/sort/bubblesort.rs` `bubblesort_by`.  The fuel `length * length + 1`
bounds the number of passes of the source's unbounded `while` loop for any
comparator consistent with an order (each pass that swaps removes at least one
inversion, and there are at most `length * length` of them). -/
def bubblesort_by (l : List α) : Except (Halt × List α) (List α) :=
  let length := l.length
  if length ≤ 1 then .ok l
  else bubbleLoop ascending cmp length (length * length + 1) l

/-- `src/sort/bubblesort.rs` `bubblesort`. -/
def bubblesort [LinearOrder β] (l : List β) (ascending : Bool) :
    Except (Halt × List β) (List β) :=
  bubblesort_by ascending compare l

/-- The inner `while` loop of `insertionsort_by`
(`src/sort/insertionsort.rs`): keep swapping the element leftwards while it
violates order against its left neighbour, stopping at index 0 or at the
first neighbour already in order. -/
def insertLoop (l : List α) (location : Nat) : Except (Halt × List α) (List α) :=
  match getE l location with
  | .error hl => .error (hl, l)
  | .ok a =>
    match getE l (location + 1) with
    | .error hl => .error (hl, l)
    | .ok b =>
      if (if ascending then priority.is_gt (cmp a b) else priority.is_lt (cmp a b)) then
        match swapE l location (location + 1) with
        | .error hl => .error (hl, l)
        | .ok l' =>
          if h0 : location = 0 then .ok l'
          else insertLoop l' (location - 1)
      else .ok l
termination_by location
decreasing_by omega

/-- The outer `for index in 1..length` loop of `insertionsort_by`. -/
def insertGo (length : Nat) (l : List α) (index : Nat) :
    Except (Halt × List α) (List α) :=
  if _h : index < length then
    match insertLoop ascending cmp l (index - 1) with
    | .error e => .error e
    | .ok l' => insertGo length l' (index + 1)
  else .ok l
termination_by length - index
decreasing_by omega

/-- `src/sort/insertionsort.rs` `insertionsort_by`. -/
def insertionsort_by (l : List α) : Except (Halt × List α) (List α) :=
  let length := l.length
  if length ≤ 1 then .ok l
  else insertGo ascending cmp length l 1

/-- `src/sort/insertionsort.rs` `insertionsort`. -/
def insertionsort [LinearOrder β] (l : List β) (ascending : Bool) :
    Except (Halt × List β) (List β) :=
  insertionsort_by ascending compare l

/-- The inner scan of `selectionsort_by` (`src/sort/selectionsort.rs`):
`for (index, element) in sequence.iter().enumerate()`, skipping
`index <= subsequence` and tracking the current extreme index. -/
def selScan (l : List α) (subseq extreme index : Nat) : Except Halt Nat :=
  if _h : index < l.length then
    if index ≤ subseq then selScan l subseq extreme (index + 1)
    else
      match getE l index with
      | .error hl => .error hl
      | .ok element =>
        match getE l extreme with
        | .error hl => .error hl
        | .ok ex =>
          if ascending && priority.is_lt (cmp element ex) then
            selScan l subseq index (index + 1)
          else if !ascending && priority.is_gt (cmp element ex) then
            selScan l subseq index (index + 1)
          else selScan l subseq extreme (index + 1)
  else .ok extreme
termination_by l.length - index
decreasing_by all_goals omega

/-- The outer `for subsequence in 0..length` loop of `selectionsort_by`. -/
def selGo (length : Nat) (l : List α) (subseq : Nat) :
    Except (Halt × List α) (List α) :=
  if _h : subseq < length then
    match selScan ascending cmp l subseq subseq 0 with
    | .error hl => .error (hl, l)
    | .ok extreme =>
      match transfer_element l extreme subseq with
      | .error k => .error (.err k, l)
      | .ok l' => selGo length l' (subseq + 1)
  else .ok l
termination_by length - subseq
decreasing_by omega

/-- `src/sort/selectionsort.rs` `selectionsort_by`. -/
def selectionsort_by (l : List α) : Except (Halt × List α) (List α) :=
  let length := l.length
  if length ≤ 1 then .ok l
  else selGo ascending cmp length l 0

/-- `src/sort/selectionsort.rs` `selectionsort`. -/
def selectionsort [LinearOrder β] (l : List β) (ascending : Bool) :
    Except (Halt × List β) (List β) :=
  selectionsort_by ascending compare l

end QuadraticSorts

section MergeSorts

variable {α : Type _} (ascending : Bool) (cmp : α → α → Ordering)

/-- One merge pass: the `for left in (0..length).step_by(size*2)` loop shared
verbatim by `mergesort_by` (`src/sort/mergesort.rs` lines 189–197) and the
merge phase of `timsort_by` (`src/sort/timsort.rs` lines 110–118).  `hs`
records that the step `size*2` is positive (`step_by(0)` would have
panicked). -/
def mergePassAux (length size : Nat) (hs : 0 < size) (l : List α) (left : Nat) :
    Except (Halt × List α) (List α) :=
  if _h : left < length then
    match merge ascending cmp l left (min (left + size - 1) (length - 1))
        (min (left + 2 * size - 1) (length - 1)) with
    | .error e => .error e
    | .ok l' => mergePassAux length size hs l' (left + 2 * size)
  else .ok l
termination_by length - left
decreasing_by omega

/-- The doubling `while size < length` loop shared by `mergesort_by` and the
merge phase of `timsort_by` (the source repeats the same loop in both
functions; `size *= 2` and `size <<= 1` agree). -/
def mergeSizes (length : Nat) (l : List α) (size : Nat) (hs : 0 < size) :
    Except (Halt × List α) (List α) :=
  if _h : size < length then
    match mergePassAux ascending cmp length size hs l 0 with
    | .error e => .error e
    | .ok l' => mergeSizes length l' (size * 2) (by omega)
  else .ok l
termination_by length - size
decreasing_by omega

/-- `src/sort/mergesort.rs` `mergesort_by` (iterative merge sort). -/
def mergesort_by (l : List α) : Except (Halt × List α) (List α) :=
  let length := l.length
  if length ≤ 1 then .ok l
  else mergeSizes ascending cmp length l 1 (by omega)

/-- `src/sort/mergesort.rs` `mergesort`. -/
def mergesort [LinearOrder β] (l : List β) (ascending : Bool) :
    Except (Halt × List β) (List β) :=
  mergesort_by ascending compare l

/-- `src/sort/mergesort.rs` `mergesort_recursively_by`.  The two recursive
calls act on the sub-slices `sequence[..middle]` and `sequence[middle..]`;
their results (also the state carried by an `Err`) are spliced back into the
whole sequence, which is what the caller of the Rust function observes. -/
def mergesort_recursively_by (l : List α) : Except (Halt × List α) (List α) :=
  let length := l.length
  if length ≤ 1 then .ok l
  else
    let middle := length / 2
    match mergesort_recursively_by (l.take middle) with
    | .error (hl, s) => .error (hl, s ++ l.drop middle)
    | .ok s₁ =>
      match mergesort_recursively_by (l.drop middle) with
      | .error (hl, s₂) => .error (hl, s₁ ++ s₂)
      | .ok s₂ => merge ascending cmp (s₁ ++ s₂) 0 (middle - 1) (length - 1)
termination_by l.length
decreasing_by
  all_goals simp [List.length_take, List.length_drop]
  all_goals omega

/-- `src/sort/mergesort.rs` `mergesort_recursively`. -/
def mergesort_recursively [LinearOrder β] (l : List β) (ascending : Bool) :
    Except (Halt × List β) (List β) :=
  mergesort_recursively_by ascending compare l

end MergeSorts

section Quicksort

variable {α : Type _} (ascending : Bool) (cmp : α → α → Ordering)

/-- The `for hare in left..pivot` sweep of `partition`
(`src/sort/quicksort.rs` lines 91–101), carrying the `tortoise` cursor. -/
def partLoop (pivot : Nat) (l : List α) (tortoise hare : Nat) :
    Except (Halt × List α) (Nat × List α) :=
  if _h : hare < pivot then
    match getE l hare with
    | .error hl => .error (hl, l)
    | .ok a =>
      match getE l pivot with
      | .error hl => .error (hl, l)
      | .ok p =>
        let ordering := cmp a p
        if (priority.is_le ordering && ascending)
            || (priority.is_ge ordering && !ascending) then
          match swapE l tortoise hare with
          | .error hl => .error (hl, l)
          | .ok l' => partLoop pivot l' (tortoise + 1) (hare + 1)
        else partLoop pivot l tortoise (hare + 1)
  else .ok (tortoise, l)
termination_by pivot - hare
decreasing_by all_goals omega

/-- `src/sort/quicksort.rs` `partition`.  Note two faithful quirks of the
source: the `alreadysorted!(result length, return 0)` macro returns `Ok(0)`
for slices of length ≤ 1 *before* any argument checking, and `right - 1` on
`right = 0` underflows `usize` (a panic with debug assertions; with release
wrapping the sweep then indexes out of bounds and panics as well), modelled
here as `Halt.panicked`. -/
def partition (l : List α) (left right : Nat) :
    Except (Halt × List α) (Nat × List α) :=
  let length := l.length
  if length ≤ 1 then .ok (0, l)
  else if left > right then .error (.err .wrongOrder, l)
  else if left ≥ length then .error (.err .outOfBounds, l)
  else if right > length then .error (.err .outOfBounds, l)
  else if right = 0 then .error (.panicked, l)
  else
    let pivot := right - 1
    match partLoop ascending cmp pivot l left left with
    | .error e => .error e
    | .ok (tortoise, l') =>
      match swapE l' tortoise pivot with
      | .error hl => .error (hl, l')
      | .ok l'' => .ok (tortoise, l'')

/-- The boolean test under which the partition sweep swaps the current
element toward the tortoise cursor
(`(is_le(ordering) && ascending) || (is_ge(ordering) && !ascending)`,
quicksort.rs lines 96–97): "in order or equal relative to the pivot". -/
def partCond (ascending : Bool) (cmp : α → α → Ordering) (a p : α) : Bool :=
  (priority.is_le (cmp a p) && ascending) || (priority.is_ge (cmp a p) && !ascending)

/-- The `while let Some(segment) = stack.pop()` loop of `quicksort_by`
(`src/sort/quicksort.rs` lines 177–193), by fuel (see `Halt.diverged`).  The
stack of `SegmentPair`s is a list whose head is the top; the source pushes the
left sub-segment first and the right one second, so the right one ends up on
top. -/
def qsLoop : Nat → List α → List (Nat × Nat) → Except (Halt × List α) (List α)
  | 0, l, _ => .error (.diverged, l)
  | _, l, [] => .ok l
  | fuel + 1, l, (start, stop) :: rest =>
    match partition ascending cmp l start (stop + 1) with
    | .error e => .error e
    | .ok (pivot, l') =>
      let st1 := if pivot > start + 1 then (start, pivot - 1) :: rest else rest
      let st2 := if pivot + 1 < stop then (pivot + 1, stop) :: st1 else st1
      qsLoop fuel l' st2

/-- `src/sort/quicksort.rs` `quicksort_by` (iterative, explicit stack).  The
fuel `length + 1` bounds the number of loop iterations: popping a segment
`[s, e]` and pushing the sub-segments around the returned pivot strictly
decreases `Σ (e - s) + stack.length`, which starts at `length`. -/
def quicksort_by (l : List α) : Except (Halt × List α) (List α) :=
  let length := l.length
  if length ≤ 1 then .ok l
  else qsLoop ascending cmp (length + 1) l [(0, length - 1)]

/-- `src/sort/quicksort.rs` `quicksort`. -/
def quicksort [LinearOrder β] (l : List β) (ascending : Bool) :
    Except (Halt × List β) (List β) :=
  quicksort_by ascending compare l

/-- The body of `src/sort/quicksort.rs` `quicksort_recursively_by`.  The
recursive calls act on the sub-slices `sequence[..pivot]` and
`sequence[pivot+1..]`; their results (also the state carried by an `Err`) are
spliced back into the whole sequence.  The recursion carries an explicit depth
budget (see `Halt.diverged`); since a successful `partition` always returns a
pivot inside the slice, every recursive call strictly shrinks the slice and
the budget `l.length + 1` supplied by `quicksort_recursively_by` never runs
out. -/
def qsRecGo : Nat → List α → Except (Halt × List α) (List α)
  | 0, l => .error (.diverged, l)
  | fuel + 1, l =>
    if l.length ≤ 1 then .ok l
    else
      match partition ascending cmp l 0 l.length with
      | .error e => .error e
      | .ok (pivot, l') =>
        match qsRecGo fuel (l'.take pivot) with
        | .error (hl, s) => .error (hl, s ++ l'.drop pivot)
        | .ok s₁ =>
          match qsRecGo fuel (l'.drop (pivot + 1)) with
          | .error (hl, s₂) => .error (hl, s₁ ++ (l'.drop pivot).take 1 ++ s₂)
          | .ok s₂ => .ok (s₁ ++ (l'.drop pivot).take 1 ++ s₂)

/-- `src/sort/quicksort.rs` `quicksort_recursively_by`. -/
def quicksort_recursively_by (l : List α) : Except (Halt × List α) (List α) :=
  qsRecGo ascending cmp (l.length + 1) l

/-- `src/sort/quicksort.rs` `quicksort_recursively`. -/
def quicksort_recursively [LinearOrder β] (l : List β) (ascending : Bool) :
    Except (Halt × List β) (List β) :=
  quicksort_recursively_by ascending compare l

end Quicksort

section Timsort

variable {α : Type _} (ascending : Bool) (cmp : α → α → Ordering)

/-- The `for offset in (0..length).step_by(run)` loop of `timsort_by`
(`src/sort/timsort.rs` lines 98–104): insertion-sort each run
`sequence[offset..min(offset+run, length)]` in place.  `hr` records that the
step is positive (`step_by(0)` panics before this loop can run). -/
def timRunsAux (length run : Nat) (hr : 0 < run) (l : List α) (offset : Nat) :
    Except (Halt × List α) (List α) :=
  if _h : offset < length then
    let stop := min (offset + run) length
    match insertionsort_by ascending cmp ((l.drop offset).take (stop - offset)) with
    | .error (hl, s) => .error (hl, l.take offset ++ s ++ l.drop stop)
    | .ok s => timRunsAux length run hr (l.take offset ++ s ++ l.drop stop) (offset + run)
  else .ok l
termination_by length - offset
decreasing_by omega

/-- `src/sort/timsort.rs` `timsort_by`: length ≤ 1 returns at once; length ≤
`run` delegates to insertion sort; otherwise insertion-sort each run of size
`run` and then double a merge width from `run` upward (the same loop as the
iterative merge sort).  With `run = 0` and length ≥ 2, `(0..length).step_by(0)`
panics, mirrored by `Halt.panicked`. -/
def timsort_by (l : List α) (run : Nat) : Except (Halt × List α) (List α) :=
  let length := l.length
  if length ≤ 1 then .ok l
  else if length ≤ run then insertionsort_by ascending cmp l
  else if hr : 0 < run then
    match timRunsAux ascending cmp length run hr l 0 with
    | .error e => .error e
    | .ok l' => mergeSizes ascending cmp length l' run hr
  else .error (.panicked, l)

/-- `src/sort/timsort.rs` `timsort`. -/
def timsort [LinearOrder β] (l : List β) (ascending : Bool) (run : Nat) :
    Except (Halt × List β) (List β) :=
  timsort_by ascending compare l run

end Timsort

section Search

variable {α : Type _} (ascending : Bool) (cmp : α → α → Ordering)

/-- The interior `while left <= right` loop of `binarysearch_unchecked_by`
(`src/binarysearch/mod.rs` lines 141–169).  The source writes one loop per
direction differing only in the branch predicate (`is_lt` ascending, `is_gt`
descending), written here as one body.  `middle - 1` on `middle = 0` would
underflow `usize` (never reached from the public entry point, which starts
the loop at `left = 1`); it is modelled as a panic. -/
def bsLoop (l : List α) (item : α) (left right : Nat) : Except Halt Nat :=
  if _h : left ≤ right then
    let middle := left + (right - left) / 2
    match getE l middle with
    | .error hl => .error hl
    | .ok b =>
      let ordering := cmp item b
      if priority.is_eq ordering then .ok left
      else if (if ascending then priority.is_lt ordering else priority.is_gt ordering) then
        if _h0 : middle = 0 then .error .panicked
        else bsLoop l item left (middle - 1)
      else bsLoop l item (middle + 1) right
  else .ok left
termination_by right + 1 - left
decreasing_by
  · have := Nat.div_le_self (right - left) 2
    omega
  · have := Nat.div_le_self (right - left) 2
    omega

/-- `src/binarysearch/mod.rs` `binarysearch_unchecked_by`. -/
def binarysearch_unchecked_by (l : List α) (item : α) : Except Halt Nat :=
  let length := l.length
  if length = 0 then .ok 0
  else if length = 1 then
    match getE l 0 with
    | .error hl => .error hl
    | .ok a =>
      let ordering := cmp item a
      .ok (if ascending then (if priority.is_le ordering then 0 else 1)
           else (if priority.is_ge ordering then 0 else 1))
  else
    match getE l 0 with
    | .error hl => .error hl
    | .ok first =>
      match getE l (length - 1) with
      | .error hl => .error hl
      | .ok final =>
        if (if ascending then priority.is_lt (cmp item first)
            else priority.is_gt (cmp item first)) then .ok 0
        else if (if ascending then priority.is_gt (cmp item final)
            else priority.is_lt (cmp item final)) then .ok length
        else bsLoop ascending cmp l item 1 (length - 1)

/-- `src/binarysearch/mod.rs` `binarysearch_unchecked`. -/
def binarysearch_unchecked [LinearOrder β] (l : List β) (item : β)
    (ascending : Bool) : Except Halt Nat :=
  binarysearch_unchecked_by ascending compare l item

/-- `src/binarysearch/mod.rs` `binarysearch_by` (the checked search).  The
value `.ok (.ok (.inl i))` is Rust's `Ok(Ok(i))` (exact match),
`.ok (.ok (.inr i))` is `Ok(Err(i))` (insertion point), and
`.ok (.error .unordered)` is `Err(AgcError(Unordered, ..))`.  After the
unchecked search the source indexes `sequence[location]` unconditionally. -/
def binarysearch_by (l : List α) (item : α) :
    Except Halt (Except AgcErrorKind (Nat ⊕ Nat)) :=
  if !(is_sorted_by l ascending cmp) then .ok (.error .unordered)
  else
    match binarysearch_unchecked_by ascending cmp l item with
    | .error hl => .error hl
    | .ok location =>
      match getE l location with
      | .error hl => .error hl
      | .ok a =>
        .ok (.ok (if priority.is_eq (cmp item a) then .inl location
                  else .inr location))

/-- `src/binarysearch/mod.rs` `binarysearch` (the `Ord` default form, which
uses `priority::eq` on the element at the returned location). -/
def binarysearch [LinearOrder β] (l : List β) (item : β) (ascending : Bool) :
    Except Halt (Except AgcErrorKind (Nat ⊕ Nat)) :=
  if !(is_sorted l ascending) then .ok (.error .unordered)
  else
    match binarysearch_unchecked l item ascending with
    | .error hl => .error hl
    | .ok location =>
      match getE l location with
      | .error hl => .error hl
      | .ok a =>
        .ok (.ok (if priority.eq item a then .inl location else .inr location))

end Search

section Lawful

variable {α : Type _}

/-- A comparator consistent with a single total (possibly weak) order:
swapping the arguments swaps the outcome, and the non-strict relation
`cmp a b ≠ .gt` is transitive.  `LinearOrder.compare` satisfies it, as does
any comparator obtained from a key function into a linear order. -/
structure LawfulCmp (cmp : α → α → Ordering) : Prop where
  symm : ∀ a b, cmp b a = (cmp a b).swap
  le_trans : ∀ {a b c}, cmp a b ≠ .gt → cmp b c ≠ .gt → cmp a c ≠ .gt

/-- The non-strict "may come before" relation in direction `ascending`:
not-`gt` ascending, not-`lt` descending.  A list is sorted in the sense of
`is_sorted_by` exactly when adjacent elements satisfy `inOrd`. -/
def inOrd (ascending : Bool) (cmp : α → α → Ordering) (a b : α) : Prop :=
  if ascending then cmp a b ≠ .gt else cmp a b ≠ .lt

instance {ascending : Bool} {cmp : α → α → Ordering} {a b : α} :
    Decidable (inOrd ascending cmp a b) := by
  unfold inOrd
  split <;> infer_instance

namespace LawfulCmp

variable {cmp : α → α → Ordering}

theorem refl (lc : LawfulCmp cmp) (a : α) : cmp a a = .eq := by
  have h := lc.symm a a
  cases hc : cmp a a with
  | lt => rw [hc] at h; simp [Ordering.swap] at h
  | eq => rfl
  | gt => rw [hc] at h; simp [Ordering.swap] at h

theorem gt_iff (lc : LawfulCmp cmp) {a b : α} : cmp a b = .gt ↔ cmp b a = .lt := by
  have h := lc.symm a b
  cases hab : cmp a b <;> rw [hab] at h <;> simp [Ordering.swap] at h <;> simp [h]

theorem eq_iff (lc : LawfulCmp cmp) {a b : α} : cmp a b = .eq ↔ cmp b a = .eq := by
  have h := lc.symm a b
  cases hab : cmp a b <;> rw [hab] at h <;> simp [Ordering.swap] at h <;> simp [h]

theorem inOrd_refl (lc : LawfulCmp cmp) (ascending : Bool) (a : α) : inOrd ascending cmp a a := by
  unfold inOrd
  split <;> simp [lc.refl a]

theorem inOrd_trans (lc : LawfulCmp cmp) {ascending : Bool} {a b c : α} (hab : inOrd ascending cmp a b)
    (hbc : inOrd ascending cmp b c) : inOrd ascending cmp a c := by
  unfold inOrd at *
  by_cases ha : ascending = true
  · simp only [ha, if_true] at *
    exact lc.le_trans hab hbc
  · simp only [ha, if_false] at *
    intro hac
    have h1 : cmp b a ≠ .gt := fun h => hab (lc.gt_iff.mp h)
    have h2 : cmp c b ≠ .gt := fun h => hbc (lc.gt_iff.mp h)
    exact (lc.le_trans h2 h1) (lc.gt_iff.mpr hac)

theorem inOrd_of_not_inOrd (lc : LawfulCmp cmp) {ascending : Bool} {a b : α}
    (h : ¬ inOrd ascending cmp a b) : inOrd ascending cmp b a := by
  have hs := lc.symm a b
  unfold inOrd at *
  cases ascending <;> simp at h ⊢ <;> rw [h] at hs <;>
    simp [Ordering.swap] at hs <;> simp [hs]

end LawfulCmp

/-- `LinearOrder.compare` is a lawful comparator. -/
theorem lawfulCmp_compare [LinearOrder β] :
    LawfulCmp (fun a b : β => compare a b) := by
  constructor
  · intro a b
    rcases lt_trichotomy a b with h | h | h
    · rw [compare_lt_iff_lt.mpr h, compare_gt_iff_gt.mpr h]
      rfl
    · rw [compare_eq_iff_eq.mpr h, compare_eq_iff_eq.mpr h.symm]
      rfl
    · rw [compare_gt_iff_gt.mpr h, compare_lt_iff_lt.mpr h]
      rfl
  · intro a b c hab hbc
    exact compare_le_iff_le.mpr (le_trans (compare_le_iff_le.mp hab)
      (compare_le_iff_le.mp hbc))

/-- The boolean adjacency test inside `sortedChain` agrees with `inOrd`. -/
theorem sortedChain_iff_chain' (ascending : Bool) (cmp : α → α → Ordering) :
    ∀ l : List α, sortedChain ascending cmp l = true ↔
      List.Chain' (inOrd ascending cmp) l
  | [] => by simp [sortedChain]
  | [a] => by simp [sortedChain]
  | a :: b :: t => by
    rw [sortedChain, Bool.and_eq_true, sortedChain_iff_chain' ascending cmp (b :: t),
      List.chain'_cons]
    constructor
    · rintro ⟨h1, h2⟩
      refine ⟨?_, h2⟩
      unfold inOrd
      revert h1
      split <;> cases cmp a b <;> simp [priority.is_gt, priority.is_lt]
    · rintro ⟨h1, h2⟩
      refine ⟨?_, h2⟩
      unfold inOrd at h1
      revert h1
      split <;> cases cmp a b <;> simp [priority.is_gt, priority.is_lt]

/-- `is_sorted_by` decides the `Chain'` formulation of sortedness. -/
theorem is_sorted_by_iff_chain' (l : List α) (ascending : Bool)
    (cmp : α → α → Ordering) :
    is_sorted_by l ascending cmp = true ↔ List.Chain' (inOrd ascending cmp) l := by
  rw [is_sorted_by]
  split
  · rename_i h
    match l, h with
    | [], _ => simp
    | [a], _ => simp
    | a :: b :: t, h => simp at h
  · exact sortedChain_iff_chain' ascending cmp l

/-- For a lawful comparator, `is_sorted_by` decides the pairwise formulation
of sortedness. -/
theorem is_sorted_by_iff_pairwise {cmp : α → α → Ordering} (lc : LawfulCmp cmp)
    (l : List α) (ascending : Bool) :
    is_sorted_by l ascending cmp = true ↔ List.Pairwise (inOrd ascending cmp) l := by
  rw [is_sorted_by_iff_chain']
  haveI : IsTrans α (inOrd ascending cmp) := ⟨fun _ _ _ => lc.inOrd_trans⟩
  exact List.chain'_iff_pairwise

end Lawful

section BasicLemmas

variable {α : Type _} (ascending : Bool) (cmp : α → α → Ordering)

/-- Rust's `slice.swap` keeps the slice length. -/
theorem swapE_ok_length {l l₂ : List α} {i j : Nat} (h : swapE l i j = .ok l₂) :
    l₂.length = l.length := by
  simp only [swapE] at h
  split at h
  · split at h
    · simp only [Except.ok.injEq] at h
      subst h
      simp
    · exact absurd h (by simp)
  · exact absurd h (by simp)

/-- `partLoop` keeps `tortoise` between its starting value and
`max hare pivot`, and never changes the length of the list. -/
theorem partLoop_ok_bounds {pivot t' : Nat} {l' : List α} :
    ∀ {l : List α} {tortoise hare : Nat}, tortoise ≤ hare →
      partLoop ascending cmp pivot l tortoise hare = .ok (t', l') →
      tortoise ≤ t' ∧ t' ≤ max hare pivot ∧ l'.length = l.length := by
  intro l tortoise hare
  induction l, tortoise, hare using partLoop.induct ascending cmp pivot with
  | case1 l tortoise hare hlt hl ha =>
    intro hth h
    rw [partLoop, dif_pos hlt, ha] at h
    exact absurd h (by simp)
  | case2 l tortoise hare hlt a ha hl hp =>
    intro hth h
    rw [partLoop, dif_pos hlt, ha, hp] at h
    exact absurd h (by simp)
  | case3 l tortoise hare hlt a ha b hp ord hcond hl hswap =>
    intro hth h
    rw [partLoop, dif_pos hlt, ha, hp] at h
    simp only [hcond, if_true, hswap] at h
    exact absurd h (by simp)
  | case4 l tortoise hare hlt a ha b hp ord hcond l₂ hswap ih =>
    intro hth h
    rw [partLoop, dif_pos hlt, ha, hp] at h
    simp only [hcond, if_true, hswap] at h
    have hlen := swapE_ok_length hswap
    have := ih (by omega) h
    omega
  | case5 l tortoise hare hlt a ha b hp ord hcond ih =>
    intro hth h
    rw [partLoop, dif_pos hlt, ha, hp] at h
    simp only [if_neg hcond] at h
    have := ih (by omega) h
    omega
  | case6 l tortoise hare hge =>
    intro hth h
    rw [partLoop, dif_neg hge] at h
    simp only [Except.ok.injEq, Prod.mk.injEq] at h
    obtain ⟨rfl, rfl⟩ := h
    exact ⟨Nat.le_refl _, by omega, rfl⟩

/-- If `partition` succeeds with `left < right` on a list of length ≥ 2, the
pivot index it returns lies in `[left, right - 1]` and the list keeps its
length. -/
theorem partition_ok_bounds {l l' : List α} {left right p : Nat}
    (hl : 2 ≤ l.length) (hlr : left < right)
    (h : partition ascending cmp l left right = .ok (p, l')) :
    left ≤ p ∧ p ≤ right - 1 ∧ l'.length = l.length := by
  rw [partition] at h
  simp only [if_neg (by omega : ¬ l.length ≤ 1)] at h
  split at h
  · exact absurd h (by simp)
  split at h
  · exact absurd h (by simp)
  split at h
  · exact absurd h (by simp)
  split at h
  · exact absurd h (by simp)
  split at h
  · simp at h
  · rename_i t l₂ hloop
    split at h
    · exact absurd h (by simp)
    rename_i l₃ hswap
    have hb := partLoop_ok_bounds ascending cmp (Nat.le_refl left) hloop
    have hlen := swapE_ok_length hswap
    simp only [Except.ok.injEq, Prod.mk.injEq] at h
    obtain ⟨rfl, rfl⟩ := h
    refine ⟨hb.1, ?_, by omega⟩
    have h2 := hb.2.1
    simp only [Nat.max_self] at h2
    omega


/-- Element lookup at the junction of an append. -/
theorem getElem_at (A : List α) (x : α) (B : List α)
    (h : A.length < (A ++ x :: B).length) : (A ++ x :: B).get ⟨A.length, h⟩ = x := by
  have hq : (A ++ x :: B)[A.length]? = some x := by
    rw [List.getElem?_append_right (Nat.le_refl _)]
    simp
  rw [List.get_eq_getElem]
  rw [List.getElem?_eq_getElem h] at hq
  simpa using hq

/-- `getE` at the junction of an append. -/
theorem getE_at (A : List α) (x : α) (B : List α) :
    getE (A ++ x :: B) A.length = .ok x := by
  have hlt : A.length < (A ++ x :: B).length := by simp
  unfold getE
  rw [dif_pos hlt, getElem_at]

/-- `List.set` at the junction of an append. -/
theorem set_at (A : List α) (x y : α) (B : List α) :
    (A ++ x :: B).set A.length y = A ++ y :: B := by
  induction A with
  | nil => rfl
  | cons a A ih => simp only [List.cons_append, List.length_cons, List.set_cons_succ, ih]

/-- Setting an element to itself is the identity. -/
theorem set_self (l : List α) (i : Nat) (h : i < l.length) :
    l.set i (l.get ⟨i, h⟩) = l := by
  apply List.ext_getElem
  · simp
  · intro n h1 h2
    rw [List.getElem_set]
    split
    · rename_i he
      subst he
      simp [List.get_eq_getElem]
    · rfl

/-- Swapping an index with itself leaves the list unchanged. -/
theorem swapE_self {l : List α} {i : Nat} (h : i < l.length) :
    swapE l i i = .ok l := by
  unfold swapE
  rw [dif_pos h, dif_pos h]
  congr 1
  rw [List.set_set, set_self]

/-- `swapE` on an explicit two-point decomposition. -/
theorem swapE_shape (A : List α) (x : α) (M : List α) (y : α) (B : List α) :
    swapE (A ++ x :: (M ++ y :: B)) A.length (A.length + M.length + 1)
      = .ok (A ++ y :: (M ++ x :: B)) := by
  have e2 : A ++ x :: (M ++ y :: B) = (A ++ x :: M) ++ y :: B := by simp
  have hi : A.length < (A ++ x :: (M ++ y :: B)).length := by simp
  have hj : A.length + M.length + 1 < (A ++ x :: (M ++ y :: B)).length := by
    simp
    omega
  have hjlen : A.length + M.length + 1 = (A ++ x :: M).length := by
    simp
    omega
  have hgx : (A ++ x :: (M ++ y :: B)).get ⟨A.length, hi⟩ = x := getElem_at A x _ hi
  have hgy : (A ++ x :: (M ++ y :: B)).get ⟨A.length + M.length + 1, hj⟩ = y := by
    have hq : (A ++ x :: (M ++ y :: B))[A.length + M.length + 1]? = some y := by
      rw [e2, List.getElem?_append_right (by simp; omega)]
      have h0 : A.length + M.length + 1 - (A ++ x :: M).length = 0 := by
        simp
        omega
      rw [h0]
      simp
    rw [List.get_eq_getElem]
    rw [List.getElem?_eq_getElem hj] at hq
    simpa using hq
  unfold swapE
  rw [dif_pos hi, dif_pos hj]
  rw [hgx, hgy]
  congr 1
  rw [set_at A x y (M ++ y :: B), hjlen]
  have e3 : A ++ y :: (M ++ y :: B) = (A ++ y :: M) ++ y :: B := by simp
  have e4 : (A ++ x :: M).length = (A ++ y :: M).length := by simp
  rw [e3, e4, set_at (A ++ y :: M) y x B]
  simp

/-- Any in-bounds index splits a list at that position. -/
theorem cons_decomp {l : List α} {i : Nat} (h : i < l.length) :
    ∃ A x B, l = A ++ x :: B ∧ A.length = i := by
  refine ⟨l.take i, l[i], l.drop (i + 1), ?_, by simp; omega⟩
  conv_lhs => rw [← List.take_append_drop i l]
  rw [List.drop_eq_getElem_cons h]

/-- Two in-bounds indices `i < j` split a list at both positions. -/
theorem two_decomp {l : List α} {i j : Nat} (hij : i < j) (hj : j < l.length) :
    ∃ A x M y B, l = A ++ x :: (M ++ y :: B) ∧ A.length = i ∧
      A.length + M.length + 1 = j := by
  obtain ⟨A, x, B, rfl, hA⟩ := cons_decomp (lt_trans hij hj)
  have hjB : j - i - 1 < B.length := by
    simp at hj
    omega
  obtain ⟨M, y, B', rfl, hM⟩ := cons_decomp hjB
  exact ⟨A, x, M, y, B', rfl, hA, by omega⟩

/-- `swapE` is symmetric in its two indices. -/
theorem swapE_comm (l : List α) (i j : Nat) : swapE l i j = swapE l j i := by
  unfold swapE
  by_cases hi : i < l.length <;> by_cases hj : j < l.length <;>
    simp only [dif_pos, dif_neg, hi, hj, dite_true, dite_false]
  by_cases hij : i = j
  · subst hij
    rfl
  · rw [List.set_comm _ _ _ hij]

/-- Exchanging the elements at two marked positions permutes the list. -/
theorem perm_swap_shape (A M B : List α) (x y : α) :
    (A ++ y :: (M ++ x :: B)).Perm (A ++ x :: (M ++ y :: B)) := by
  refine List.Perm.append_left A ?_
  have h1 : (y :: (M ++ x :: B)).Perm (y :: x :: (M ++ B)) :=
    List.Perm.cons y List.perm_middle
  have h2 : (y :: x :: (M ++ B)).Perm (x :: y :: (M ++ B)) :=
    List.Perm.swap x y (M ++ B)
  have h3 : (x :: y :: (M ++ B)).Perm (x :: (M ++ y :: B)) :=
    List.Perm.cons x List.perm_middle.symm
  exact (h1.trans h2).trans h3

/-- A successful `swapE` permutes the list. -/
theorem swapE_perm {l l₂ : List α} {i j : Nat} (h : swapE l i j = .ok l₂) :
    l₂.Perm l := by
  have hswap := h
  unfold swapE at hswap
  by_cases hi : i < l.length
  case neg =>
    rw [dif_neg hi] at hswap
    simp at hswap
  by_cases hj : j < l.length
  case neg =>
    rw [dif_pos hi, dif_neg hj] at hswap
    simp at hswap
  clear hswap
  rcases Nat.lt_trichotomy i j with hij | rfl | hij
  · obtain ⟨A, x, M, y, B, rfl, hA, hM⟩ := two_decomp hij hj
    rw [← hA, ← hM, swapE_shape] at h
    simp only [Except.ok.injEq] at h
    subst h
    exact perm_swap_shape A M B x y
  · rw [swapE_self hi] at h
    simp only [Except.ok.injEq] at h
    subst h
    exact List.Perm.refl _
  · rw [swapE_comm] at h
    obtain ⟨A, x, M, y, B, rfl, hA, hM⟩ := two_decomp hij hi
    rw [← hA, ← hM, swapE_shape] at h
    simp only [Except.ok.injEq] at h
    subst h
    exact perm_swap_shape A M B x y

/-- `rotl1` permutes its argument. -/
theorem rotl1_perm (l : List α) : (rotl1 l).Perm l := by
  cases l with
  | nil => exact List.Perm.refl _
  | cons x t => exact List.perm_append_singleton x t

/-- `rotr1` of a list ending in `y` pulls `y` to the front. -/
theorem rotr1_concat (X : List α) (y : α) : rotr1 (X ++ [y]) = y :: X := by
  unfold rotr1
  have h1 : (X ++ [y]).length - 1 = X.length := by simp
  rw [h1, List.drop_left, List.dropLast_concat]
  rfl

/-- `rotr1` permutes its argument. -/
theorem rotr1_perm (l : List α) : (rotr1 l).Perm l := by
  rcases List.eq_nil_or_concat l with rfl | ⟨X, y, rfl⟩
  · exact List.Perm.refl _
  · rw [List.concat_eq_append, rotr1_concat]
    exact (List.perm_append_singleton y X).symm

/-- A successful `transfer_element` permutes the list. -/
theorem transfer_element_perm {l l₂ : List α} {frm dst : Nat}
    (h : transfer_element l frm dst = .ok l₂) : l₂.Perm l := by
  unfold transfer_element at h
  by_cases h1 : frm ≥ l.length ∨ dst ≥ l.length
  · rw [if_pos h1] at h
    simp at h
  rw [if_neg h1] at h
  by_cases h2 : frm = dst
  · rw [if_pos h2] at h
    simp only [Except.ok.injEq] at h
    subst h
    exact List.Perm.refl _
  rw [if_neg h2] at h
  by_cases h3 : frm < dst
  · rw [if_pos h3] at h
    simp only [Except.ok.injEq] at h
    subst h
    have hidentity : l = l.take frm ++ ((l.drop frm).take (dst + 1 - frm)
        ++ l.drop (dst + 1)) := by
      conv_lhs => rw [← List.take_append_drop frm l]
      congr 1
      conv_lhs => rw [← List.take_append_drop (dst + 1 - frm) (l.drop frm)]
      congr 1
      rw [List.drop_drop]
      congr 1
      omega
    conv_rhs => rw [hidentity]
    rw [← List.append_assoc]
    refine List.Perm.append ?_ (List.Perm.refl _)
    exact List.Perm.append_left _ (rotl1_perm _)
  · rw [if_neg h3] at h
    simp only [Except.ok.injEq] at h
    subst h
    have hidentity : l = l.take dst ++ ((l.drop dst).take (frm + 1 - dst)
        ++ l.drop (frm + 1)) := by
      conv_lhs => rw [← List.take_append_drop dst l]
      congr 1
      conv_lhs => rw [← List.take_append_drop (frm + 1 - dst) (l.drop dst)]
      congr 1
      rw [List.drop_drop]
      congr 1
      omega
    conv_rhs => rw [hidentity]
    rw [← List.append_assoc]
    refine List.Perm.append ?_ (List.Perm.refl _)
    exact List.Perm.append_left _ (rotr1_perm _)

/-- `transfer_element` moving a marked element to the front of a marked
sub-range: the rotation realizes exactly "pull `y` before `X`". -/
theorem transfer_shape_right (A X : List α) (y : α) (B : List α) :
    transfer_element (A ++ (X ++ y :: B)) (A.length + X.length) A.length
      = .ok (A ++ y :: (X ++ B)) := by
  unfold transfer_element
  have hlen : (A ++ (X ++ y :: B)).length = A.length + X.length + 1 + B.length := by
    simp
    omega
  rw [if_neg (by omega : ¬ (A.length + X.length ≥ (A ++ (X ++ y :: B)).length
    ∨ A.length ≥ (A ++ (X ++ y :: B)).length))]
  by_cases hX : X = []
  · subst hX
    rw [if_pos (by simp)]
    simp
  · have hXpos : 0 < X.length := List.length_pos.mpr hX
    rw [if_neg (by omega), if_neg (by omega)]
    congr 1
    rw [List.take_left, List.drop_left]
    have h1 : A.length + X.length + 1 - A.length = X.length + 1 := by omega
    rw [h1]
    have h2 : X ++ y :: B = (X ++ [y]) ++ B := by simp
    rw [h2, List.take_left' (by simp), rotr1_concat]
    have h3 : A ++ ((X ++ [y]) ++ B) = (A ++ (X ++ [y])) ++ B := by simp
    rw [h3, List.drop_left' (by simp; omega)]
    simp

/-- The in-place merge loop computes exactly `List.merge` of the two runs
under `mergeLE`: starting from deposit region `A` (of length `left + deposit`),
left run `X`, right run `Y` and untouched tail `B`, it terminates with
`A ++ List.merge X Y ++ B`.  No ordering hypotheses are needed. -/
theorem mergeLoop_spec :
    ∀ (n : Nat) (X Y A B : List α) (left deposit : Nat),
      X.length + Y.length = n → A.length = left + deposit →
      mergeLoop ascending cmp left (A ++ X ++ Y ++ B) deposit X.length Y.length
        = .ok (A ++ List.merge X Y (mergeLE ascending cmp) ++ B) := by
  intro n
  induction n using Nat.strong_induction_on with
  | _ n ih =>
    intro X Y A B left deposit hn hA
    match X, Y with
    | [], Y =>
      rw [mergeLoop, dif_neg (by simp)]
      simp [List.nil_merge]
    | x :: X', [] =>
      rw [mergeLoop, dif_neg (by simp)]
      simp [List.merge]
    | x :: X', y :: Y' =>
      rw [mergeLoop, dif_pos (by constructor <;> simp)]
      have hget1 : getE (A ++ (x :: X') ++ (y :: Y') ++ B) (left + deposit) = .ok x := by
        have e : A ++ (x :: X') ++ (y :: Y') ++ B = A ++ x :: (X' ++ (y :: Y') ++ B) := by
          simp
        rw [e, ← hA, getE_at]
      have hget2 : getE (A ++ (x :: X') ++ (y :: Y') ++ B)
          (left + deposit + (x :: X').length) = .ok y := by
        have e : A ++ (x :: X') ++ (y :: Y') ++ B = (A ++ x :: X') ++ y :: (Y' ++ B) := by
          simp
        have e2 : left + deposit + (x :: X').length = (A ++ x :: X').length := by
          simp
          omega
        rw [e, e2, getE_at]
      rw [hget1, hget2]
      dsimp only
      by_cases hc : priority.is_lt (cmp x y) = ascending
      · rw [if_pos hc]
        have e : A ++ (x :: X') ++ (y :: Y') ++ B = (A ++ [x]) ++ X' ++ (y :: Y') ++ B := by
          simp
        have hls : (x :: X').length - 1 = X'.length := by simp
        rw [e, hls]
        rw [ih (X'.length + (y :: Y').length) (by simp at hn ⊢; omega) X' (y :: Y')
          (A ++ [x]) B left (deposit + 1) rfl (by simp; omega)]
        rw [List.cons_merge_cons]
        rw [if_pos (by simp [mergeLE, hc])]
        simp
      · rw [if_neg hc]
        have e : A ++ (x :: X') ++ (y :: Y') ++ B = A ++ ((x :: X') ++ y :: (Y' ++ B)) := by
          simp
        have e2 : left + deposit + (x :: X').length = A.length + (x :: X').length := by
          omega
        rw [e, e2, ← hA]
        rw [transfer_shape_right A (x :: X') y (Y' ++ B)]
        dsimp only
        have e3 : A ++ y :: ((x :: X') ++ (Y' ++ B))
            = (A ++ [y]) ++ (x :: X') ++ Y' ++ B := by simp
        have hrs : (y :: Y').length - 1 = Y'.length := by simp
        rw [e3, hrs]
        rw [ih ((x :: X').length + Y'.length) (by simp at hn ⊢; omega) (x :: X') Y'
          (A ++ [y]) B left (deposit + 1) rfl (by simp; omega)]
        rw [List.cons_merge_cons]
        rw [if_neg (by simp [mergeLE, hc])]
        simp

/-- Characterization of `merge` on argument triples satisfying
`left ≤ middle ≤ right < length`: it succeeds and replaces the range
`[left, right]` by `List.merge` of the two runs under `mergeLE`, leaving the
prefix and suffix untouched. -/
theorem merge_spec {l : List α}
    {left middle right : Nat} (h1 : left ≤ middle) (h2 : middle ≤ right)
    (h3 : right < l.length) :
    merge ascending cmp l left middle right
      = .ok (l.take left
          ++ List.merge ((l.drop left).take (middle + 1 - left))
               ((l.drop (middle + 1)).take (right - middle)) (mergeLE ascending cmp)
          ++ l.drop (right + 1)) := by
  unfold merge
  rw [if_neg (by omega), if_neg (by omega), if_neg (by omega), if_neg (by omega),
    if_neg (by omega)]
  set A := l.take left with hAdef
  set X := (l.drop left).take (middle + 1 - left) with hXdef
  set Y := (l.drop (middle + 1)).take (right - middle) with hYdef
  set B := l.drop (right + 1) with hBdef
  have hX : X.length = middle - left + 1 := by
    rw [hXdef]
    simp
    omega
  have hY : Y.length = right - middle := by
    rw [hYdef]
    simp
    omega
  have hA : A.length = left + 0 := by
    rw [hAdef]
    simp
    omega
  have hid : l = A ++ X ++ Y ++ B := by
    rw [hAdef, hXdef, hYdef, hBdef]
    simp only [List.append_assoc]
    conv_lhs => rw [← List.take_append_drop left l]
    congr 1
    conv_lhs => rw [← List.take_append_drop (middle + 1 - left) (l.drop left)]
    congr 1
    rw [List.drop_drop]
    have e5 : left + (middle + 1 - left) = middle + 1 := by omega
    rw [e5]
    conv_lhs => rw [← List.take_append_drop (right - middle) (l.drop (middle + 1))]
    congr 1
    rw [List.drop_drop]
    congr 1
    omega
  conv_lhs => rw [hid]
  have hls : middle - left + 1 = X.length := by omega
  have hrs : right - middle = Y.length := by omega
  rw [hls, hrs]
  exact mergeLoop_spec ascending cmp (X.length + Y.length) X Y A B left 0 rfl hA


end BasicLemmas

section MergeOrder

variable {α : Type _} {ascending : Bool} {cmp : α → α → Ordering}

/-- When the merge loop lets the left element stand, the pair is in order
(no lawfulness needed: the test is strict ascending, non-strict descending). -/
theorem mergeLE_true_inOrd {a b : α} (h : mergeLE ascending cmp a b = true) :
    inOrd ascending cmp a b := by
  unfold mergeLE at h
  rw [beq_iff_eq] at h
  unfold inOrd
  cases ascending <;> cases hc : cmp a b <;> simp_all [priority.is_lt]

/-- When the merge loop deposits the right element, the pair in the other
orientation is in order (needs the comparator's antisymmetry). -/
theorem mergeLE_false_inOrd (lc : LawfulCmp cmp) {a b : α}
    (h : mergeLE ascending cmp a b = false) : inOrd ascending cmp b a := by
  unfold mergeLE at h
  have hs := lc.symm a b
  unfold inOrd
  cases ascending <;> cases hc : cmp a b <;> simp_all [priority.is_lt, Ordering.swap]

/-- Membership in `List.merge` (via its permutation property). -/
theorem mem_merge {z : α} {X Y : List α} {le : α → α → Bool} :
    z ∈ List.merge X Y le ↔ z ∈ X ∨ z ∈ Y := by
  rw [(List.perm_merge le X Y).mem_iff, List.mem_append]

/-- `List.merge` of two sorted lists under `mergeLE` is sorted, for a lawful
comparator, in either direction. -/
theorem merge_pairwise (lc : LawfulCmp cmp) :
    ∀ X Y : List α, X.Pairwise (inOrd ascending cmp) →
      Y.Pairwise (inOrd ascending cmp) →
      (List.merge X Y (mergeLE ascending cmp)).Pairwise (inOrd ascending cmp) := by
  intro X
  induction X with
  | nil =>
    intro Y _ hY
    rw [List.nil_merge]
    exact hY
  | cons x X ihX =>
    intro Y hX hY
    induction Y with
    | nil =>
      simp only [List.merge]
      exact hX
    | cons y Y ihY =>
      rw [List.cons_merge_cons]
      rw [List.pairwise_cons] at hX hY
      by_cases hc : mergeLE ascending cmp x y = true
      · rw [if_pos hc]
        rw [List.pairwise_cons]
        constructor
        · intro z hz
          rw [mem_merge] at hz
          rcases hz with hz | hz
          · exact hX.1 z hz
          · rcases List.mem_cons.mp hz with rfl | hz
            · exact mergeLE_true_inOrd hc
            · exact lc.inOrd_trans (mergeLE_true_inOrd hc) (hY.1 z hz)
        · exact ihX (y :: Y) hX.2 (List.pairwise_cons.mpr hY)
      · rw [if_neg hc]
        rw [List.pairwise_cons]
        constructor
        · intro z hz
          rw [mem_merge] at hz
          rcases hz with hz | hz
          · rcases List.mem_cons.mp hz with rfl | hz
            · exact mergeLE_false_inOrd lc (Bool.eq_false_iff.mpr hc)
            · exact lc.inOrd_trans
                (mergeLE_false_inOrd lc (Bool.eq_false_iff.mpr hc)) (hX.1 z hz)
          · exact hY.1 z hz
        · exact ihY hY.2


end MergeOrder

section ConcreteClaims

/-- C3 (code bug): on the sorted sequence `[1, 2, 5, 5]` with item `5`
(ascending), `binarysearch_unchecked_by` returns index `1`, but the element
`2` at index `1` compares strictly *before* the item — the claimed
"every element at an index `i` or greater compares at-or-after x" fails.
The cause: the interior loop returns `left` instead of `middle` when it finds
an `Equal` element. -/
theorem claim_C3_unchecked_search_wrong_index :
    is_sorted_by ([1, 2, 5, 5] : List ℤ) true (fun a b => compare a b) = true ∧
    binarysearch_unchecked_by true (fun a b => compare a b)
      ([1, 2, 5, 5] : List ℤ) 5 = .ok 1 ∧
    ([1, 2, 5, 5] : List ℤ)[1]? = some 2 ∧
    compare (5 : ℤ) 2 = .gt := by
  have e1 : compare (5 : ℤ) 1 = .gt := by decide
  have e2 : compare (5 : ℤ) 5 = .eq := by decide
  refine ⟨by decide, ?_, by decide, by decide⟩
  simp [binarysearch_unchecked_by, bsLoop, getE, e1, e2, priority.is_lt,
    priority.is_gt, priority.is_eq]
  decide

/-- C4 (code bug): the checked search indexes `sequence[location]` with the
location returned by the unchecked search, which equals `length` for an item
that belongs after the last element and for the empty sequence; the code
panics there instead of returning `Ok(Err(length))` as both the spec and the
function's own documentation state. -/
theorem claim_C4_checked_search_panics :
    binarysearch_by true (fun a b => compare a b) ([1, 2] : List ℤ) 3
      = .error .panicked ∧
    binarysearch ([] : List ℤ) 0 true = .error .panicked ∧
    binarysearch ([1, 2] : List ℤ) 3 true = .error .panicked := by
  have e1 : compare (1 : ℤ) 2 = .lt := by decide
  have e2 : compare (3 : ℤ) 1 = .gt := by decide
  have e3 : compare (3 : ℤ) 2 = .gt := by decide
  refine ⟨?_, ?_, ?_⟩
  · simp [binarysearch_by, binarysearch_unchecked_by, is_sorted_by, sortedChain, getE,
      e1, e2, e3, priority.is_lt, priority.is_gt]
  · simp [binarysearch, binarysearch_unchecked, binarysearch_unchecked_by, is_sorted,
      is_sorted_by, sortedChain, getE]
  · simp [binarysearch, binarysearch_unchecked, binarysearch_unchecked_by, is_sorted,
      is_sorted_by, sortedChain, getE, e1, e2, e3, priority.is_lt, priority.is_gt]

/-- C6 (code bug): `merge` checks its indices with `> length` instead of
`≥ length`.  With `left = middle = 1`, `right = 2` on the two-element slice
`[0, 1]` all checks pass and the loop indexes position `2`, a panic; with
`left = middle = right = 2 = length` the call succeeds outright.  The claim
(and the spec, and the function's own documentation) require an `OutOfBounds`
error in both cases. -/
theorem claim_C6_merge_bounds_off_by_one :
    merge true (fun a b => compare a b) ([0, 1] : List ℤ) 1 1 2
      = .error (.panicked, [0, 1]) ∧
    merge true (fun a b => compare a b) ([0, 1] : List ℤ) 2 2 2 = .ok [0, 1] := by
  constructor
  · simp [merge, mergeLoop, getE]
  · simp [merge, mergeLoop]

/-- C9 counterexample: `partition` returns `Ok(0)` on slices of length ≤ 1
before any argument checking (here `left = 1 > right = 0` should give
`WrongOrder` by the claim), and when `left > right` *and* `left ≥ length` it
returns `WrongOrder`, not the `OutOfBounds` the claim also demands for that
argument pair. -/
theorem claim_C9_counterexample :
    partition true (fun a b => compare a b) ([] : List ℤ) 1 0 = .ok (0, []) ∧
    partition true (fun a b => compare a b) ([0, 1] : List ℤ) 5 3
      = .error (.err .wrongOrder, [0, 1]) := by
  constructor
  · simp [partition]
  · simp [partition]

/-- C9 (amended): on slices of length at least 2, `partition` fails with
`WrongOrder` whenever `left > right`, and otherwise with `OutOfBounds`
whenever `left ≥ length` or `right > length`, returning the error (with the
slice untouched) rather than succeeding or panicking; on slices of length at
most 1 it returns `Ok(0)` for every argument pair. -/
theorem claim_C9_partition_argument_checks {α : Type} (ascending : Bool)
    (cmp : α → α → Ordering) (l : List α) (left right : Nat) :
    (l.length ≤ 1 → partition ascending cmp l left right = .ok (0, l)) ∧
    (2 ≤ l.length → left > right →
      partition ascending cmp l left right = .error (.err .wrongOrder, l)) ∧
    (2 ≤ l.length → left ≤ right → left ≥ l.length →
      partition ascending cmp l left right = .error (.err .outOfBounds, l)) ∧
    (2 ≤ l.length → left ≤ right → left < l.length → right > l.length →
      partition ascending cmp l left right = .error (.err .outOfBounds, l)) := by
  refine ⟨fun h1 => ?_, fun h2 hlr => ?_, fun h2 hlr hll => ?_,
    fun h2 hlr hll hrl => ?_⟩ <;>
  · simp only [partition]
    split_ifs <;> first | rfl | omega

/-- Witness for `claim_C9_partition_argument_checks` at concrete inputs. -/
theorem claim_C9_witness :
    partition true (fun a b => compare a b) ([5] : List ℤ) 7 3 = .ok (0, [5]) ∧
    partition true (fun a b => compare a b) ([0, 1] : List ℤ) 4 2
      = .error (.err .wrongOrder, [0, 1]) ∧
    partition true (fun a b => compare a b) ([0, 1] : List ℤ) 2 2
      = .error (.err .outOfBounds, [0, 1]) ∧
    partition true (fun a b => compare a b) ([0, 1] : List ℤ) 1 3
      = .error (.err .outOfBounds, [0, 1]) :=
  ⟨(claim_C9_partition_argument_checks true _ [5] 7 3).1 (by decide),
   (claim_C9_partition_argument_checks true _ [0, 1] 4 2).2.1 (by decide) (by decide),
   (claim_C9_partition_argument_checks true _ [0, 1] 2 2).2.2.1 (by decide)
     (by decide) (by decide),
   (claim_C9_partition_argument_checks true _ [0, 1] 1 3).2.2.2 (by decide)
     (by decide) (by decide) (by decide)⟩

/-- C10: for every sequence of length at least 2, `timsort` and `timsort_by`
with run size 0 panic — the run loop is `(0..length).step_by(run)` and a step
of zero panics — instead of returning a `Result`; the run parameter silently
requires `run ≥ 1`. -/
theorem claim_C10_timsort_zero_run_panics :
    (∀ (α : Type) (ascending : Bool) (cmp : α → α → Ordering) (l : List α),
      2 ≤ l.length → timsort_by ascending cmp l 0 = .error (.panicked, l)) ∧
    (∀ (β : Type) (inst : LinearOrder β) (ascending : Bool) (l : List β),
      2 ≤ l.length → @timsort β inst l ascending 0 = .error (.panicked, l)) := by
  constructor
  · intro α ascending cmp l h2
    rw [timsort_by]
    simp only [if_neg (by omega : ¬ l.length ≤ 1), if_neg (by omega : ¬ l.length ≤ 0)]
    rfl
  · intro β inst ascending l h2
    rw [timsort, timsort_by]
    simp only [if_neg (by omega : ¬ l.length ≤ 1), if_neg (by omega : ¬ l.length ≤ 0)]
    rfl

/-- Witness for `claim_C10_timsort_zero_run_panics` at a concrete input. -/
theorem claim_C10_witness :
    timsort_by true (fun a b => compare a b) ([5, 4] : List ℤ) 0
      = .error (.panicked, [5, 4]) ∧
    timsort ([5, 4] : List ℤ) true 0 = .error (.panicked, [5, 4]) :=
  ⟨claim_C10_timsort_zero_run_panics.1 ℤ true (fun a b => compare a b) [5, 4]
     (by decide),
   claim_C10_timsort_zero_run_panics.2 ℤ inferInstance true [5, 4] (by decide)⟩

/-- C7 counterexample: merging the single-element runs `[(5,0)]` and
`[(5,1)]` in *ascending* direction under a comparator that compares only the
first component (so the two elements tie) deposits the right-run element
first: the left-run element `(5,0)` ends at index 1, *after* the equal
right-run element, contradicting the claimed stability in both directions. -/
theorem claim_C7_counterexample :
    (fun a b : ℤ × ℤ => compare a.1 b.1) (5, 0) (5, 1) = .eq ∧
    merge true (fun a b : ℤ × ℤ => compare a.1 b.1) [(5, 0), (5, 1)] 0 0 1
      = .ok [(5, 1), (5, 0)] := by
  constructor
  · decide
  · simp [merge, mergeLoop, getE, transfer_element, rotr1, priority.is_lt]
    norm_num [compare_lt_iff_lt, compareOfLessAndEq]

/-- C5: `merge` on a slice with `left ≤ middle ≤ right < length`, a lawful
comparator, and the runs `[left, middle]` and `[middle+1, right]` each sorted
in direction `ascending`, returns `Ok` (no panic) and leaves the combined
range `[left, right]` sorted in that direction. -/
theorem claim_C5_merge_sorts_valid_runs {α : Type} {cmp : α → α → Ordering}
    (lc : LawfulCmp cmp) (ascending : Bool) (l : List α) (left middle right : Nat)
    (h1 : left ≤ middle) (h2 : middle ≤ right) (h3 : right < l.length)
    (hrun1 : is_sorted_by ((l.drop left).take (middle + 1 - left)) ascending cmp
      = true)
    (hrun2 : is_sorted_by ((l.drop (middle + 1)).take (right - middle)) ascending cmp
      = true) :
    ∃ l₂, merge ascending cmp l left middle right = .ok l₂ ∧
      is_sorted_by ((l₂.drop left).take (right + 1 - left)) ascending cmp = true := by
  refine ⟨_, merge_spec ascending cmp h1 h2 h3, ?_⟩
  set X := (l.drop left).take (middle + 1 - left) with hXdef
  set Y := (l.drop (middle + 1)).take (right - middle) with hYdef
  have hM : (List.merge X Y (mergeLE ascending cmp)).Pairwise (inOrd ascending cmp) :=
    merge_pairwise lc X Y ((is_sorted_by_iff_pairwise lc _ _).mp hrun1)
      ((is_sorted_by_iff_pairwise lc _ _).mp hrun2)
  have hA : (l.take left).length = left := by
    simp
    omega
  have hseg : ((l.take left ++ List.merge X Y (mergeLE ascending cmp)
      ++ l.drop (right + 1)).drop left).take (right + 1 - left)
      = List.merge X Y (mergeLE ascending cmp) := by
    rw [List.append_assoc, List.drop_left' hA]
    have hMlen : (List.merge X Y (mergeLE ascending cmp)).length
        = right + 1 - left := by
      rw [List.length_merge]
      rw [hXdef, hYdef]
      simp
      omega
    rw [List.take_left' hMlen]
  rw [hseg]
  exact (is_sorted_by_iff_pairwise lc _ _).mpr hM

/-- Witness for `claim_C5_merge_sorts_valid_runs` at a concrete input. -/
theorem claim_C5_witness :
    ∃ l₂, merge true (fun a b => compare a b) ([1, 3, 2, 4] : List ℤ) 0 1 3
      = .ok l₂ ∧
      is_sorted_by ((l₂.drop 0).take 4) true (fun a b => compare a b) = true :=
  claim_C5_merge_sorts_valid_runs lawfulCmp_compare true [1, 3, 2, 4] 0 1 3
    (by decide) (by decide) (by decide) (by decide) (by decide)

/-- C7 (amended): `merge` on a valid argument triple implements the
two-pointer `List.merge` of its two runs under `mergeLE`, and `mergeLE`
resolves ties asymmetrically: in the descending direction the left-run
element is deposited first (left-run elements keep their relative order
against equal right-run elements), while in the ascending direction the
right-run element is deposited first (equal right-run elements end up before
left-run ones). -/
theorem claim_C7_merge_tie_behavior :
    (∀ (α : Type) (ascending : Bool) (cmp : α → α → Ordering) (l : List α)
       (left middle right : Nat),
       left ≤ middle → middle ≤ right → right < l.length →
       merge ascending cmp l left middle right
         = .ok (l.take left
             ++ List.merge ((l.drop left).take (middle + 1 - left))
                  ((l.drop (middle + 1)).take (right - middle))
                  (mergeLE ascending cmp)
             ++ l.drop (right + 1))) ∧
    (∀ (α : Type) (cmp : α → α → Ordering) (x y : α) (X Y : List α),
       priority.is_eq (cmp x y) = true →
       List.merge (x :: X) (y :: Y) (mergeLE false cmp)
           = x :: List.merge X (y :: Y) (mergeLE false cmp) ∧
       List.merge (x :: X) (y :: Y) (mergeLE true cmp)
           = y :: List.merge (x :: X) Y (mergeLE true cmp)) := by
  constructor
  · intro α ascending cmp l left middle right h1 h2 h3
    exact merge_spec ascending cmp h1 h2 h3
  · intro α cmp x y X Y heq
    have hc : cmp x y = .eq := by
      revert heq
      cases cmp x y <;> simp [priority.is_eq]
    constructor
    · rw [List.cons_merge_cons, if_pos (by simp [mergeLE, hc, priority.is_lt])]
    · rw [List.cons_merge_cons, if_neg (by simp [mergeLE, hc, priority.is_lt])]

/-- Witness for `claim_C7_merge_tie_behavior` at concrete inputs. -/
theorem claim_C7_witness :
    merge false (fun a b : ℤ × ℤ => compare a.1 b.1) [(5, 0), (5, 1)] 0 0 1
      = .ok (([(5, 0), (5, 1)] : List (ℤ × ℤ)).take 0
          ++ List.merge [(5, 0)] [(5, 1)] (mergeLE false fun a b => compare a.1 b.1)
          ++ ([(5, 0), (5, 1)] : List (ℤ × ℤ)).drop 2) ∧
    List.merge [(5, 0)] [(5, 1)] (mergeLE false fun a b : ℤ × ℤ => compare a.1 b.1)
      = (5, 0) :: List.merge [] [(5, 1)] (mergeLE false fun a b : ℤ × ℤ => compare a.1 b.1) ∧
    List.merge [(5, 0)] [(5, 1)] (mergeLE true fun a b : ℤ × ℤ => compare a.1 b.1)
      = (5, 1) :: List.merge [(5, 0)] [] (mergeLE true fun a b : ℤ × ℤ => compare a.1 b.1) := by
  refine ⟨?_, ?_, ?_⟩
  · have h := claim_C7_merge_tie_behavior.1 (ℤ × ℤ) false
      (fun a b => compare a.1 b.1) [(5, 0), (5, 1)] 0 0 1
      (by decide) (by decide) (by decide)
    simpa using h
  · exact (claim_C7_merge_tie_behavior.2 (ℤ × ℤ) (fun a b => compare a.1 b.1)
      (5, 0) (5, 1) [] [] (by decide)).1
  · exact (claim_C7_merge_tie_behavior.2 (ℤ × ℤ) (fun a b => compare a.1 b.1)
      (5, 0) (5, 1) [] [] (by decide)).2

end ConcreteClaims

end Algocol

namespace Algocol

variable {α : Type _} (ascending : Bool) (cmp : α → α → Ordering)

theorem partLoop_spec :
    ∀ (R : List α) (G B pre C : List α) (pv : α),
      (∀ b ∈ B, partCond ascending cmp b pv = false) →
      ∃ B' : List α,
        B'.Perm (B ++ R.filter (fun r => !(partCond ascending cmp r pv))) ∧
        (∀ b ∈ B', partCond ascending cmp b pv = false) ∧
        partLoop ascending cmp (pre.length + G.length + B.length + R.length)
          (pre ++ (G ++ (B ++ (R ++ pv :: C))))
          (pre.length + G.length) (pre.length + G.length + B.length)
        = .ok (pre.length + G.length
                + (R.filter (fun r => partCond ascending cmp r pv)).length,
            pre ++ (G ++ (R.filter (fun r => partCond ascending cmp r pv)
                ++ (B' ++ pv :: C)))) := by
  intro R
  induction R with
  | nil =>
    intro G B pre C pv hB
    refine ⟨B, by simp, hB, ?_⟩
    rw [partLoop, dif_neg (by simp)]
    simp
  | cons r R' ih =>
    intro G B pre C pv hB
    have hget1 : getE (pre ++ (G ++ (B ++ ((r :: R') ++ pv :: C))))
        (pre.length + G.length + B.length) = .ok r := by
      have e1 : pre ++ (G ++ (B ++ ((r :: R') ++ pv :: C)))
          = (pre ++ (G ++ B)) ++ r :: (R' ++ pv :: C) := by simp
      have e2 : pre.length + G.length + B.length = (pre ++ (G ++ B)).length := by
        simp
        omega
      rw [e1, e2, getE_at]
    have hget2 : getE (pre ++ (G ++ (B ++ ((r :: R') ++ pv :: C))))
        (pre.length + G.length + B.length + (r :: R').length) = .ok pv := by
      have e1 : pre ++ (G ++ (B ++ ((r :: R') ++ pv :: C)))
          = (pre ++ (G ++ (B ++ (r :: R')))) ++ pv :: C := by simp
      have e2 : pre.length + G.length + B.length + (r :: R').length
          = (pre ++ (G ++ (B ++ (r :: R')))).length := by
        simp
        omega
      rw [e1, e2, getE_at]
    rw [partLoop, dif_pos (by simp), hget1, hget2]
    dsimp only
    by_cases hc : ((priority.is_le (cmp r pv) && ascending)
        || (priority.is_ge (cmp r pv) && !ascending)) = true
    · have hct : partCond ascending cmp r pv = true := hc
      rw [if_pos hc]
      cases B with
      | nil =>
        simp only [List.length_nil, Nat.add_zero]
        rw [swapE_self (by simp)]
        dsimp only
        obtain ⟨B', hBp, hBc, hrec⟩ := ih (G ++ [r]) [] pre C pv (by simp)
        refine ⟨B', ?_, hBc, ?_⟩
        · rw [List.filter_cons_of_neg (by simp [hct])]
          simpa using hBp
        · rw [(by simp : (pre ++ (G ++ ([] ++ ((r :: R') ++ pv :: C))))
                = pre ++ ((G ++ [r]) ++ ([] ++ (R' ++ pv :: C))))]
          rw [List.filter_cons_of_pos (by simp [hct])]
          convert hrec using 2 <;> (try simp) <;> (try omega)
      | cons b B₂ =>
        have e : pre ++ (G ++ ((b :: B₂) ++ ((r :: R') ++ pv :: C)))
            = (pre ++ G) ++ b :: (B₂ ++ r :: (R' ++ pv :: C)) := by simp
        have e2 : pre.length + G.length = (pre ++ G).length := by simp
        have e3 : pre.length + G.length + (b :: B₂).length
            = (pre ++ G).length + B₂.length + 1 := by
          simp
          omega
        rw [e, e3, e2, swapE_shape]
        dsimp only
        have hBnew : ∀ x ∈ B₂ ++ [b], partCond ascending cmp x pv = false := by
          intro x hx
          rcases List.mem_append.mp hx with hx | hx
          · exact hB x (List.mem_cons_of_mem b hx)
          · rw [List.mem_singleton.mp hx]
            exact hB b (List.mem_cons_self b B₂)
        obtain ⟨B', hBp, hBc, hrec⟩ := ih (G ++ [r]) (B₂ ++ [b]) pre C pv hBnew
        refine ⟨B', ?_, hBc, ?_⟩
        · rw [List.filter_cons_of_neg (by simp [hct])]
          refine hBp.trans ?_
          refine List.Perm.append ?_ (List.Perm.refl _)
          exact List.perm_append_singleton b B₂
        · rw [(by simp : (pre ++ G) ++ r :: (B₂ ++ b :: (R' ++ pv :: C))
              = pre ++ ((G ++ [r]) ++ ((B₂ ++ [b]) ++ (R' ++ pv :: C))))]
          rw [List.filter_cons_of_pos (by simp [hct])]
          convert hrec using 2 <;> (try simp) <;> (try omega)
    · have hcf : partCond ascending cmp r pv = false := Bool.eq_false_iff.mpr hc
      rw [if_neg hc]
      have hBnew : ∀ x ∈ B ++ [r], partCond ascending cmp x pv = false := by
        intro x hx
        rcases List.mem_append.mp hx with hx | hx
        · exact hB x hx
        · rw [List.mem_singleton.mp hx]
          exact hcf
      obtain ⟨B', hBp, hBc, hrec⟩ := ih G (B ++ [r]) pre C pv hBnew
      refine ⟨B', ?_, hBc, ?_⟩
      · rw [List.filter_cons_of_pos (by simp [hcf])]
        simpa using hBp
      · rw [(by simp : pre ++ (G ++ (B ++ ((r :: R') ++ pv :: C)))
            = pre ++ (G ++ ((B ++ [r]) ++ (R' ++ pv :: C))))]
        rw [List.filter_cons_of_neg (by simp [hcf])]
        convert hrec using 2 <;> (try simp) <;> (try omega)

end Algocol

namespace Algocol

variable {α : Type _} (ascending : Bool) (cmp : α → α → Ordering)

theorem partition_spec {l : List α} {left right : Nat}
    (h2 : 2 ≤ l.length) (hlr : left < right) (hrl : right ≤ l.length) :
    ∃ (pv : α) (B' : List α),
      l.drop (right - 1) = pv :: l.drop right ∧
      B'.Perm (((l.drop left).take (right - 1 - left)).filter
        (fun r => !(partCond ascending cmp r pv))) ∧
      partition ascending cmp l left right
        = .ok (left + (((l.drop left).take (right - 1 - left)).filter
              (fun r => partCond ascending cmp r pv)).length,
            l.take left ++ ((l.drop left).take (right - 1 - left)).filter
              (fun r => partCond ascending cmp r pv)
            ++ pv :: (B' ++ l.drop right)) := by
  have hr1 : right - 1 < l.length := by omega
  have hpv : l.drop (right - 1) = l[right - 1] :: l.drop right := by
    rw [List.drop_eq_getElem_cons hr1, (by omega : right - 1 + 1 = right)]
  set pv := l[right - 1] with hpvdef
  set R := (l.drop left).take (right - 1 - left) with hRdef
  have hRlen : R.length = right - 1 - left := by
    rw [hRdef]
    simp
    omega
  have hpre : (l.take left).length = left := by
    simp
    omega
  obtain ⟨B', hBp, hBc, hrec⟩ := partLoop_spec ascending cmp R [] [] (l.take left)
    (l.drop right) pv (by simp)
  simp only [List.length_nil, Nat.add_zero, List.nil_append, hpre] at hrec
  set F := R.filter (fun r => partCond ascending cmp r pv) with hFdef
  have hFB : F.length
      + (R.filter (fun r => !(partCond ascending cmp r pv))).length = R.length := by
    have := (List.filter_append_perm (fun r => partCond ascending cmp r pv) R).length_eq
    simpa [hFdef] using this
  have hBlen : B'.length
      = (R.filter (fun r => !(partCond ascending cmp r pv))).length :=
    hBp.length_eq
  have hgoal_l : l = l.take left ++ (R ++ pv :: l.drop right) := by
    conv_lhs => rw [← List.take_append_drop left l]
    congr 1
    conv_lhs => rw [← List.take_append_drop (right - 1 - left) (l.drop left)]
    rw [← hRdef]
    congr 1
    rw [List.drop_drop]
    rw [(by omega : left + (right - 1 - left) = right - 1)]
    exact hpv
  have hrec' : partLoop ascending cmp (right - 1)
      (l.take left ++ (R ++ pv :: l.drop right)) left left
      = .ok (left + F.length, l.take left ++ (F ++ (B' ++ pv :: l.drop right))) := by
    convert hrec using 2
    omega
  cases B' with
  | nil =>
    have hFR : F.length = R.length := by
      simp at hBlen
      omega
    have hpart : partition ascending cmp l left right
        = .ok (left + F.length,
            l.take left ++ F ++ pv :: ([] ++ l.drop right)) := by
      rw [partition]
      simp only [if_neg (by omega : ¬ l.length ≤ 1),
        if_neg (by omega : ¬ left > right), if_neg (by omega : ¬ left ≥ l.length),
        if_neg (by omega : ¬ right > l.length), if_neg (by omega : ¬ right = 0)]
      conv_lhs => rw [hgoal_l]
      rw [hrec']
      dsimp only
      have hswap : swapE (l.take left ++ (F ++ ([] ++ pv :: l.drop right)))
          (left + F.length) (right - 1)
          = .ok (l.take left ++ (F ++ ([] ++ pv :: l.drop right))) := by
        rw [(by omega : right - 1 = left + F.length)]
        exact swapE_self (by simp; omega)
      rw [hswap]
      dsimp only
      simp
    exact ⟨pv, [], hpv, by simpa using hBp, hpart⟩
  | cons b B₂ =>
    have hpart : partition ascending cmp l left right
        = .ok (left + F.length,
            l.take left ++ F ++ pv :: ((B₂ ++ [b]) ++ l.drop right)) := by
      rw [partition]
      simp only [if_neg (by omega : ¬ l.length ≤ 1),
        if_neg (by omega : ¬ left > right), if_neg (by omega : ¬ left ≥ l.length),
        if_neg (by omega : ¬ right > l.length), if_neg (by omega : ¬ right = 0)]
      conv_lhs => rw [hgoal_l]
      rw [hrec']
      dsimp only
      have e : l.take left ++ (F ++ ((b :: B₂) ++ pv :: l.drop right))
          = (l.take left ++ F) ++ b :: (B₂ ++ pv :: l.drop right) := by simp
      have et : left + F.length = (l.take left ++ F).length := by
        simp
        omega
      have ep : right - 1 = (l.take left ++ F).length + B₂.length + 1 := by
        simp at hBlen ⊢
        omega
      rw [e]
      nth_rewrite 1 [et]
      rw [ep, swapE_shape]
      dsimp only
      simp
    exact ⟨pv, B₂ ++ [b], hpv, (List.perm_append_singleton b B₂).trans hBp, hpart⟩

end Algocol

namespace Algocol

/-- C8: whenever `partition` succeeds on arguments `left < right ≤ length`
(with at least two elements), returning pivot position `p` and final state
`l'`, the pivot value `pv` (the element originally at `right - 1`) sits at
index `p`, every element strictly between `left` and `p` satisfies the
partition condition against `pv` (at-or-before it when ascending,
at-or-after it when descending), and every element strictly between `p`
and `right - 1` fails it. -/
theorem claim_C8_partition_invariant {α : Type} {cmp : α → α → Ordering}
    (ascending : Bool) (l l' : List α) (pv : α)
    (left right p : Nat)
    (h2 : 2 ≤ l.length) (hlr : left < right) (hrl : right ≤ l.length)
    (hpv : l[right - 1]? = some pv)
    (hok : partition ascending cmp l left right = .ok (p, l')) :
    (∀ i a, left ≤ i → i < p → l'[i]? = some a →
        partCond ascending cmp a pv = true) ∧
    l'[p]? = some pv ∧
    (∀ i a, p < i → i ≤ right - 1 → l'[i]? = some a →
        partCond ascending cmp a pv = false) := by
  obtain ⟨pv₀, B', hdrop, hBperm, hpart⟩ :=
    partition_spec ascending cmp (l := l) h2 hlr hrl
  have hpv₀ : pv₀ = pv := by
    have h0 : l[right - 1]? = some pv₀ := by
      have := List.getElem?_drop l (right - 1) 0
      rw [hdrop] at this
      simpa using this.symm
    rw [h0] at hpv
    simpa using hpv
  subst hpv₀
  rw [hok] at hpart
  simp only [Except.ok.injEq, Prod.mk.injEq] at hpart
  obtain ⟨hp, hl'⟩ := hpart
  set R := (l.drop left).take (right - 1 - left) with hRdef
  set F := R.filter (fun r => partCond ascending cmp r pv₀) with hFdef
  have hpre : (l.take left).length = left := by
    simp
    omega
  have hRlen : R.length = right - 1 - left := by
    rw [hRdef]
    simp
    omega
  have hFB : F.length
      + (R.filter (fun r => !(partCond ascending cmp r pv₀))).length = R.length := by
    have := (List.filter_append_perm (fun r => partCond ascending cmp r pv₀) R).length_eq
    simpa [hFdef] using this
  have hBlen : B'.length
      = (R.filter (fun r => !(partCond ascending cmp r pv₀))).length :=
    hBperm.length_eq
  refine ⟨?_, ?_, ?_⟩
  · intro i a hli hip hgi
    subst hl'
    rw [List.append_assoc, List.getElem?_append_right (by omega : (l.take left).length ≤ i)] at hgi
    rw [List.getElem?_append_left (by rw [hpre] at hgi ⊢; omega)] at hgi
    have hmem : a ∈ F := List.getElem?_mem hgi
    rw [hFdef] at hmem
    have := List.of_mem_filter hmem
    simpa using this
  · subst hl'
    rw [List.getElem?_append_right (by simp; omega : (l.take left ++ F).length ≤ p)]
    have : p - (l.take left ++ F).length = 0 := by
      simp
      omega
    rw [this]
    simp
  · intro i a hpi hir hgi
    subst hl'
    have e : l.take left ++ F ++ pv₀ :: (B' ++ l.drop right)
        = (l.take left ++ F ++ [pv₀]) ++ (B' ++ l.drop right) := by simp
    rw [e] at hgi
    rw [List.getElem?_append_right (by simp; omega : (l.take left ++ F ++ [pv₀]).length ≤ i)] at hgi
    rw [List.getElem?_append_left (by simp at hBlen ⊢; omega)] at hgi
    have ha : a ∈ B' := List.getElem?_mem hgi
    have := hBperm.mem_iff.mp ha
    have := List.of_mem_filter this
    simpa using this

end Algocol

namespace Algocol

/-- Witness for `claim_C8_partition_invariant` at the concrete input
`[10, 80, 30, 90, 40, 50, 70]` with `left = 0`, `right = 7`, ascending:
`partition` returns `Ok (4, [10, 30, 40, 50, 70, 90, 80])`. -/
theorem claim_C8_witness :
    (∀ i a, 0 ≤ i → i < 4 →
        (([10, 30, 40, 50, 70, 90, 80] : List ℤ))[i]? = some a →
        partCond true compare a 70 = true) ∧
    (([10, 30, 40, 50, 70, 90, 80] : List ℤ))[4]? = some 70 ∧
    (∀ i a, 4 < i → i ≤ 6 →
        (([10, 30, 40, 50, 70, 90, 80] : List ℤ))[i]? = some a →
        partCond true compare a 70 = false) := by
  refine claim_C8_partition_invariant true
    ([10, 80, 30, 90, 40, 50, 70] : List ℤ) [10, 30, 40, 50, 70, 90, 80]
    70 0 7 4 (by decide) (by decide) (by decide) (by decide) ?_
  have e1 : compare (10 : ℤ) 70 = .lt := by decide
  have e2 : compare (80 : ℤ) 70 = .gt := by decide
  have e3 : compare (30 : ℤ) 70 = .lt := by decide
  have e4 : compare (90 : ℤ) 70 = .gt := by decide
  have e5 : compare (40 : ℤ) 70 = .lt := by decide
  have e6 : compare (50 : ℤ) 70 = .lt := by decide
  simp [partition, partLoop, getE, swapE, priority.is_le, priority.is_ge,
    e1, e2, e3, e4, e5, e6]
  rfl

end Algocol

namespace Algocol

section PermLemmas

variable {α : Type _} (ascending : Bool) (cmp : α → α → Ordering)

theorem exPerm_perm {r : Except (Halt × List α) (List α)} {l₂ l : List α}
    (h : exPerm r l₂) (hp : l₂.Perm l) : exPerm r l := by
  match r with
  | .ok l₃ => exact List.Perm.trans h hp
  | .error (hl, l₃) => exact List.Perm.trans h hp

theorem mergeLoop_perm (left : Nat) :
    ∀ (l : List α) (deposit ls rs : Nat),
      exPerm (mergeLoop ascending cmp left l deposit ls rs) l := by
  intro l deposit ls rs
  induction l, deposit, ls, rs using mergeLoop.induct ascending cmp left with
  | case1 l deposit ls rs h hl hget =>
    rw [mergeLoop, dif_pos h, hget]
    exact List.Perm.refl l
  | case2 l deposit ls rs h a hga hl hgb =>
    rw [mergeLoop, dif_pos h, hga, hgb]
    exact List.Perm.refl l
  | case3 l deposit ls rs h a hga b hgb hlt ih =>
    rw [mergeLoop, dif_pos h, hga, hgb]
    dsimp only
    rw [if_pos hlt]
    exact ih
  | case4 l deposit ls rs h a hga b hgb hlt k htr =>
    rw [mergeLoop, dif_pos h, hga, hgb]
    dsimp only
    rw [if_neg hlt, htr]
    exact List.Perm.refl l
  | case5 l deposit ls rs h a hga b hgb hlt l' htr ih =>
    rw [mergeLoop, dif_pos h, hga, hgb]
    dsimp only
    rw [if_neg hlt, htr]
    exact exPerm_perm ih (transfer_element_perm htr)
  | case6 l deposit ls rs h =>
    rw [mergeLoop, dif_neg h]
    exact List.Perm.refl l

theorem merge_perm (l : List α) (left middle right : Nat) :
    exPerm (merge ascending cmp l left middle right) l := by
  rw [merge]
  by_cases h1 : left > middle
  · rw [if_pos h1]; exact List.Perm.refl l
  rw [if_neg h1]
  by_cases h2 : middle > right
  · rw [if_pos h2]; exact List.Perm.refl l
  rw [if_neg h2]
  dsimp only
  by_cases h3 : left > l.length
  · rw [if_pos h3]; exact List.Perm.refl l
  rw [if_neg h3]
  by_cases h4 : middle > l.length
  · rw [if_pos h4]; exact List.Perm.refl l
  rw [if_neg h4]
  by_cases h5 : right > l.length
  · rw [if_pos h5]; exact List.Perm.refl l
  rw [if_neg h5]
  exact mergeLoop_perm ascending cmp left l 0 (middle - left + 1) (right - middle)

theorem bubblePass_perm (length : Nat) :
    ∀ (l : List α) (index : Nat) (sorted : Bool),
      (∀ l' s, bubblePass ascending cmp length l index sorted = .ok (l', s) → l'.Perm l) ∧
      (∀ h l', bubblePass ascending cmp length l index sorted = .error (h, l') → l'.Perm l) := by
  intro l index sorted
  induction l, index, sorted using bubblePass.induct ascending cmp length with
  | case1 l index sorted h hl hget =>
    rw [bubblePass, dif_pos h, hget]
    exact ⟨fun _ _ he => by simp at he, fun _ _ he => by
      injection he with he1; injection he1 with _ he2; rw [← he2]⟩
  | case2 l index sorted h a hga hl hgb =>
    rw [bubblePass, dif_pos h, hga, hgb]
    exact ⟨fun _ _ he => by simp at he, fun _ _ he => by
      injection he with he1; injection he1 with _ he2; rw [← he2]⟩
  | case3 l index sorted h a hga b hgb hc hl hsw =>
    rw [bubblePass, dif_pos h, hga, hgb]
    dsimp only
    simp only [dite_eq_ite] at hc
    rw [if_pos hc, hsw]
    exact ⟨fun _ _ he => by simp at he, fun _ _ he => by
      injection he with he1; injection he1 with _ he2; rw [← he2]⟩
  | case4 l index sorted h a hga b hgb hc l' hsw ih =>
    rw [bubblePass, dif_pos h, hga, hgb]
    dsimp only
    simp only [dite_eq_ite] at hc
    rw [if_pos hc, hsw]
    dsimp only
    refine ⟨fun l₂ s he => ?_, fun hh l₂ he => ?_⟩
    · exact (ih.1 l₂ s he).trans (swapE_perm hsw)
    · exact (ih.2 hh l₂ he).trans (swapE_perm hsw)
  | case5 l index sorted h a hga b hgb hc ih =>
    rw [bubblePass, dif_pos h, hga, hgb]
    dsimp only
    simp only [dite_eq_ite] at hc
    rw [if_neg hc]
    exact ih
  | case6 l index sorted h =>
    rw [bubblePass, dif_neg h]
    exact ⟨fun l₂ s he => by injection he with he1; injection he1 with he2 _; rw [← he2],
      fun _ _ he => by simp at he⟩

theorem bubbleLoop_perm (length : Nat) :
    ∀ (fuel : Nat) (l : List α), exPerm (bubbleLoop ascending cmp length fuel l) l := by
  intro fuel
  induction fuel with
  | zero => intro l; exact List.Perm.refl l
  | succ n ih =>
    intro l
    rw [bubbleLoop]
    match hbp : bubblePass ascending cmp length l 1 true with
    | .error (hh, l₂) =>
      exact (bubblePass_perm ascending cmp length l 1 true).2 hh l₂ hbp
    | .ok (l', sorted) =>
      have hperm : l'.Perm l := (bubblePass_perm ascending cmp length l 1 true).1 l' sorted hbp
      dsimp only
      by_cases hs : sorted = true
      · rw [if_pos hs]; exact hperm
      · rw [if_neg hs]; exact exPerm_perm (ih l') hperm

theorem bubblesort_by_perm (l : List α) : exPerm (bubblesort_by ascending cmp l) l := by
  rw [bubblesort_by]
  by_cases h : l.length ≤ 1
  · rw [if_pos h]; exact List.Perm.refl l
  · rw [if_neg h]; exact bubbleLoop_perm ascending cmp l.length (l.length * l.length + 1) l

theorem insertLoop_perm :
    ∀ (l : List α) (location : Nat),
      exPerm (insertLoop ascending cmp l location) l := by
  intro l location
  induction l, location using insertLoop.induct ascending cmp with
  | case1 l location hl hget =>
    rw [insertLoop, hget]
    exact List.Perm.refl l
  | case2 l location a hga hl hgb =>
    rw [insertLoop, hga, hgb]
    exact List.Perm.refl l
  | case3 l location a hga b hgb hc hl hsw =>
    rw [insertLoop, hga, hgb]
    dsimp only
    simp only [dite_eq_ite] at hc
    rw [if_pos hc, hsw]
    exact List.Perm.refl l
  | case4 l a b hc l' hga hgb hsw =>
    rw [insertLoop, hga, hgb]
    dsimp only
    simp only [dite_eq_ite] at hc
    rw [if_pos hc, hsw]
    dsimp only
    rw [dif_pos rfl]
    exact swapE_perm hsw
  | case5 l location a hga b hgb hc l' hsw hne ih =>
    rw [insertLoop, hga, hgb]
    dsimp only
    simp only [dite_eq_ite] at hc
    rw [if_pos hc, hsw]
    dsimp only
    rw [dif_neg hne]
    exact exPerm_perm ih (swapE_perm hsw)
  | case6 l location a hga b hgb hc =>
    rw [insertLoop, hga, hgb]
    dsimp only
    simp only [dite_eq_ite] at hc
    rw [if_neg hc]
    exact List.Perm.refl l

theorem insertGo_perm (length : Nat) :
    ∀ (l : List α) (index : Nat), exPerm (insertGo ascending cmp length l index) l := by
  intro l index
  induction l, index using insertGo.induct ascending cmp length with
  | case1 l index h e hil =>
    rw [insertGo, dif_pos h, hil]
    have := insertLoop_perm ascending cmp l (index - 1)
    rw [hil] at this
    match e with
    | (hh, l₂) => exact this
  | case2 l index h l' hil ih =>
    rw [insertGo, dif_pos h, hil]
    have hperm : l'.Perm l := by
      have := insertLoop_perm ascending cmp l (index - 1)
      rw [hil] at this
      exact this
    exact exPerm_perm ih hperm
  | case3 l index h =>
    rw [insertGo, dif_neg h]
    exact List.Perm.refl l

theorem insertionsort_by_perm (l : List α) : exPerm (insertionsort_by ascending cmp l) l := by
  rw [insertionsort_by]
  by_cases h : l.length ≤ 1
  · rw [if_pos h]; exact List.Perm.refl l
  · rw [if_neg h]; exact insertGo_perm ascending cmp l.length l 1

theorem selGo_perm (length : Nat) :
    ∀ (l : List α) (subseq : Nat), exPerm (selGo ascending cmp length l subseq) l := by
  intro l subseq
  induction l, subseq using selGo.induct ascending cmp length with
  | case1 l subseq h hl hscan =>
    rw [selGo, dif_pos h, hscan]
    exact List.Perm.refl l
  | case2 l subseq h extreme hscan k htr =>
    rw [selGo, dif_pos h, hscan]
    dsimp only
    rw [htr]
    exact List.Perm.refl l
  | case3 l subseq h extreme hscan l' htr ih =>
    rw [selGo, dif_pos h, hscan]
    dsimp only
    rw [htr]
    exact exPerm_perm ih (transfer_element_perm htr)
  | case4 l subseq h =>
    rw [selGo, dif_neg h]
    exact List.Perm.refl l

theorem selectionsort_by_perm (l : List α) : exPerm (selectionsort_by ascending cmp l) l := by
  rw [selectionsort_by]
  by_cases h : l.length ≤ 1
  · rw [if_pos h]; exact List.Perm.refl l
  · rw [if_neg h]; exact selGo_perm ascending cmp l.length l 0

end PermLemmas

end Algocol

namespace Algocol

section PermLemmas2

variable {α : Type _} (ascending : Bool) (cmp : α → α → Ordering)

theorem mergePassAux_perm (length size : Nat) (hs : 0 < size) :
    ∀ (l : List α) (left : Nat),
      exPerm (mergePassAux ascending cmp length size hs l left) l := by
  intro l left
  induction l, left using mergePassAux.induct ascending cmp length size hs with
  | case1 l left h e hm =>
    rw [mergePassAux, dif_pos h, hm]
    have := merge_perm ascending cmp l left
      (min (left + size - 1) (length - 1)) (min (left + 2 * size - 1) (length - 1))
    rw [hm] at this
    match e with
    | (hh, l₂) => exact this
  | case2 l left h l' hm ih =>
    rw [mergePassAux, dif_pos h, hm]
    have hperm : l'.Perm l := by
      have := merge_perm ascending cmp l left
        (min (left + size - 1) (length - 1)) (min (left + 2 * size - 1) (length - 1))
      rw [hm] at this
      exact this
    exact exPerm_perm ih hperm
  | case3 l left h =>
    rw [mergePassAux, dif_neg h]
    exact List.Perm.refl l

theorem mergeSizes_perm (length : Nat) :
    ∀ (l : List α) (size : Nat) (hs : 0 < size),
      exPerm (mergeSizes ascending cmp length l size hs) l := by
  intro l size hs
  induction l, size, hs using mergeSizes.induct ascending cmp length with
  | case1 l size hs h e hm =>
    rw [mergeSizes, dif_pos h, hm]
    have := mergePassAux_perm ascending cmp length size hs l 0
    rw [hm] at this
    match e with
    | (hh, l₂) => exact this
  | case2 l size hs h l' hm ih =>
    rw [mergeSizes, dif_pos h, hm]
    have hperm : l'.Perm l := by
      have := mergePassAux_perm ascending cmp length size hs l 0
      rw [hm] at this
      exact this
    exact exPerm_perm ih hperm
  | case3 l size hs h =>
    rw [mergeSizes, dif_neg h]
    exact List.Perm.refl l

theorem mergesort_by_perm (l : List α) : exPerm (mergesort_by ascending cmp l) l := by
  rw [mergesort_by]
  by_cases h : l.length ≤ 1
  · rw [if_pos h]; exact List.Perm.refl l
  · rw [if_neg h]; exact mergeSizes_perm ascending cmp l.length l 1 (by omega)

theorem mergesort_recursively_by_perm :
    ∀ (l : List α), exPerm (mergesort_recursively_by ascending cmp l) l := by
  intro l
  induction l using mergesort_recursively_by.induct ascending cmp with
  | case1 x len h =>
    rw [mergesort_recursively_by, if_pos h]
    exact List.Perm.refl x
  | case2 x len h mid hl s hrec ih =>
    rw [mergesort_recursively_by, if_neg h]
    dsimp only
    rw [hrec]
    rw [hrec] at ih
    have : (s ++ x.drop (x.length / 2)).Perm
        (x.take (x.length / 2) ++ x.drop (x.length / 2)) :=
      List.Perm.append_right _ ih
    exact this.trans (by rw [List.take_append_drop])
  | case3 x len h mid s₁ hrec1 hl s₂ hrec2 ih1 ih2 =>
    rw [mergesort_recursively_by, if_neg h]
    dsimp only
    rw [hrec1, hrec2]
    rw [hrec1] at ih1
    rw [hrec2] at ih2
    have : (s₁ ++ s₂).Perm (x.take (x.length / 2) ++ x.drop (x.length / 2)) :=
      List.Perm.append ih1 ih2
    exact this.trans (by rw [List.take_append_drop])
  | case4 x len h mid s₁ hrec1 s₂ hrec2 ih1 ih2 =>
    rw [mergesort_recursively_by, if_neg h]
    dsimp only
    rw [hrec1, hrec2]
    rw [hrec1] at ih1
    rw [hrec2] at ih2
    have hp : (s₁ ++ s₂).Perm (x.take (x.length / 2) ++ x.drop (x.length / 2)) :=
      List.Perm.append ih1 ih2
    have hperm : (s₁ ++ s₂).Perm x := hp.trans (by rw [List.take_append_drop])
    exact exPerm_perm (merge_perm ascending cmp (s₁ ++ s₂) 0
      (x.length / 2 - 1) (x.length - 1)) hperm

theorem partLoop_perm (pivot : Nat) :
    ∀ (l : List α) (tortoise hare : Nat),
      (∀ t' l', partLoop ascending cmp pivot l tortoise hare = .ok (t', l') → l'.Perm l) ∧
      (∀ h l', partLoop ascending cmp pivot l tortoise hare = .error (h, l') → l'.Perm l) := by
  intro l tortoise hare
  induction l, tortoise, hare using partLoop.induct ascending cmp pivot with
  | case1 l tortoise hare hlt hl ha =>
    rw [partLoop, dif_pos hlt, ha]
    exact ⟨fun _ _ he => by simp at he, fun _ _ he => by
      injection he with he1; injection he1 with _ he2; rw [← he2]⟩
  | case2 l tortoise hare hlt a ha hl hp =>
    rw [partLoop, dif_pos hlt, ha, hp]
    exact ⟨fun _ _ he => by simp at he, fun _ _ he => by
      injection he with he1; injection he1 with _ he2; rw [← he2]⟩
  | case3 l tortoise hare hlt a ha b hp ord hcond hl hswap =>
    rw [partLoop, dif_pos hlt, ha, hp]
    simp only [hcond, if_true, hswap]
    exact ⟨fun _ _ he => by simp at he, fun _ _ he => by
      injection he with he1; injection he1 with _ he2; rw [← he2]⟩
  | case4 l tortoise hare hlt a ha b hp ord hcond l₂ hswap ih =>
    rw [partLoop, dif_pos hlt, ha, hp]
    simp only [hcond, if_true, hswap]
    refine ⟨fun t' l₃ he => ?_, fun hh l₃ he => ?_⟩
    · exact (ih.1 t' l₃ he).trans (swapE_perm hswap)
    · exact (ih.2 hh l₃ he).trans (swapE_perm hswap)
  | case5 l tortoise hare hlt a ha b hp ord hcond ih =>
    rw [partLoop, dif_pos hlt, ha, hp]
    simp only [if_neg hcond]
    exact ih
  | case6 l tortoise hare hge =>
    rw [partLoop, dif_neg hge]
    exact ⟨fun t' l₃ he => by
        injection he with he1; injection he1 with _ he2; rw [← he2],
      fun _ _ he => by simp at he⟩

theorem partition_perm (l : List α) (left right : Nat) :
    (∀ p l', partition ascending cmp l left right = .ok (p, l') → l'.Perm l) ∧
    (∀ h l', partition ascending cmp l left right = .error (h, l') → l'.Perm l) := by
  rw [partition]
  dsimp only
  by_cases h1 : l.length ≤ 1
  · rw [if_pos h1]
    exact ⟨fun p l' he => by
        injection he with he1; injection he1 with _ he2; rw [← he2],
      fun _ _ he => by simp at he⟩
  rw [if_neg h1]
  by_cases h2 : left > right
  · rw [if_pos h2]
    exact ⟨fun _ _ he => by simp at he, fun _ _ he => by
      injection he with he1; injection he1 with _ he2; rw [← he2]⟩
  rw [if_neg h2]
  by_cases h3 : left ≥ l.length
  · rw [if_pos h3]
    exact ⟨fun _ _ he => by simp at he, fun _ _ he => by
      injection he with he1; injection he1 with _ he2; rw [← he2]⟩
  rw [if_neg h3]
  by_cases h4 : right > l.length
  · rw [if_pos h4]
    exact ⟨fun _ _ he => by simp at he, fun _ _ he => by
      injection he with he1; injection he1 with _ he2; rw [← he2]⟩
  rw [if_neg h4]
  by_cases h5 : right = 0
  · rw [if_pos h5]
    exact ⟨fun _ _ he => by simp at he, fun _ _ he => by
      injection he with he1; injection he1 with _ he2; rw [← he2]⟩
  rw [if_neg h5]
  match hloop : partLoop ascending cmp (right - 1) l left left with
  | .error (hh, l₂) =>
    have := (partLoop_perm ascending cmp (right - 1) l left left).2 hh l₂ hloop
    exact ⟨fun _ _ he => by simp at he, fun hh₂ l₃ he => by
      injection he with he1; injection he1 with _ he2; rw [← he2]; exact this⟩
  | .ok (tortoise, l') =>
    have hperm : l'.Perm l :=
      (partLoop_perm ascending cmp (right - 1) l left left).1 tortoise l' hloop
    dsimp only
    match hswap : swapE l' tortoise (right - 1) with
    | .error hl =>
      exact ⟨fun _ _ he => by simp at he, fun hh₂ l₃ he => by
        injection he with he1; injection he1 with _ he2; rw [← he2]; exact hperm⟩
    | .ok l'' =>
      have hperm2 : l''.Perm l := (swapE_perm hswap).trans hperm
      exact ⟨fun p l₃ he => by
          injection he with he1; injection he1 with _ he2; rw [← he2]; exact hperm2,
        fun _ _ he => by simp at he⟩

theorem qsLoop_perm :
    ∀ (fuel : Nat) (l : List α) (stack : List (Nat × Nat)),
      exPerm (qsLoop ascending cmp fuel l stack) l := by
  intro fuel
  induction fuel with
  | zero =>
    intro l stack
    simp only [qsLoop]
    exact List.Perm.refl l
  | succ n ih =>
    intro l stack
    match stack with
    | [] =>
      simp only [qsLoop]
      exact List.Perm.refl l
    | (start, stop) :: rest =>
      rw [qsLoop]
      match hp : partition ascending cmp l start (stop + 1) with
      | .error (hh, l₂) =>
        exact (partition_perm ascending cmp l start (stop + 1)).2 hh l₂ hp
      | .ok (pivot, l') =>
        have hperm : l'.Perm l :=
          (partition_perm ascending cmp l start (stop + 1)).1 pivot l' hp
        dsimp only
        exact exPerm_perm (ih l' _) hperm

theorem quicksort_by_perm (l : List α) : exPerm (quicksort_by ascending cmp l) l := by
  rw [quicksort_by]
  by_cases h : l.length ≤ 1
  · rw [if_pos h]; exact List.Perm.refl l
  · rw [if_neg h]; exact qsLoop_perm ascending cmp (l.length + 1) l [(0, l.length - 1)]

theorem qsRecGo_perm :
    ∀ (fuel : Nat) (l : List α), exPerm (qsRecGo ascending cmp fuel l) l := by
  intro fuel
  induction fuel with
  | zero =>
    intro l
    show l.Perm l
    exact List.Perm.refl l
  | succ n ih =>
    intro l
    rw [qsRecGo]
    by_cases h : l.length ≤ 1
    · rw [if_pos h]; exact List.Perm.refl l
    rw [if_neg h]
    match hp : partition ascending cmp l 0 l.length with
    | .error (hh, l₂) =>
      exact (partition_perm ascending cmp l 0 l.length).2 hh l₂ hp
    | .ok (pivot, l') =>
      have hperm : l'.Perm l :=
        (partition_perm ascending cmp l 0 l.length).1 pivot l' hp
      have hsplit : l'.take pivot ++ (l'.drop pivot).take 1 ++ l'.drop (pivot + 1) = l' := by
        have h1 : (l'.drop pivot).take 1 ++ (l'.drop pivot).drop 1 = l'.drop pivot :=
          List.take_append_drop 1 (l'.drop pivot)
        have h2 : (l'.drop pivot).drop 1 = l'.drop (pivot + 1) := List.drop_drop 1 pivot l'
        rw [List.append_assoc, ← h2, h1, List.take_append_drop]
      dsimp only
      match hr1 : qsRecGo ascending cmp n (l'.take pivot) with
      | .error (hl, s) =>
        have ihs : s.Perm (l'.take pivot) := by
          have := ih (l'.take pivot)
          rw [hr1] at this
          exact this
        have : (s ++ l'.drop pivot).Perm l' := by
          have hpp : (s ++ l'.drop pivot).Perm (l'.take pivot ++ l'.drop pivot) :=
            List.Perm.append_right _ ihs
          exact hpp.trans (by rw [List.take_append_drop])
        exact this.trans hperm
      | .ok s₁ =>
        have ih1 : s₁.Perm (l'.take pivot) := by
          have := ih (l'.take pivot)
          rw [hr1] at this
          exact this
        dsimp only
        match hr2 : qsRecGo ascending cmp n (l'.drop (pivot + 1)) with
        | .error (hl, s₂) =>
          have ih2 : s₂.Perm (l'.drop (pivot + 1)) := by
            have := ih (l'.drop (pivot + 1))
            rw [hr2] at this
            exact this
          have : (s₁ ++ (l'.drop pivot).take 1 ++ s₂).Perm l' := by
            have hpp : (s₁ ++ (l'.drop pivot).take 1 ++ s₂).Perm
                (l'.take pivot ++ (l'.drop pivot).take 1 ++ l'.drop (pivot + 1)) :=
              List.Perm.append (List.Perm.append_right ((l'.drop pivot).take 1) ih1) ih2
            exact hpp.trans (by rw [hsplit])
          exact this.trans hperm
        | .ok s₂ =>
          have ih2 : s₂.Perm (l'.drop (pivot + 1)) := by
            have := ih (l'.drop (pivot + 1))
            rw [hr2] at this
            exact this
          have : (s₁ ++ (l'.drop pivot).take 1 ++ s₂).Perm l' := by
            have hpp : (s₁ ++ (l'.drop pivot).take 1 ++ s₂).Perm
                (l'.take pivot ++ (l'.drop pivot).take 1 ++ l'.drop (pivot + 1)) :=
              List.Perm.append (List.Perm.append_right ((l'.drop pivot).take 1) ih1) ih2
            exact hpp.trans (by rw [hsplit])
          exact this.trans hperm

theorem quicksort_recursively_by_perm (l : List α) :
    exPerm (quicksort_recursively_by ascending cmp l) l := by
  rw [quicksort_recursively_by]
  exact qsRecGo_perm ascending cmp (l.length + 1) l

theorem timRunsAux_perm (length run : Nat) (hr : 0 < run) :
    ∀ (l : List α) (offset : Nat),
      exPerm (timRunsAux ascending cmp length run hr l offset) l := by
  intro l offset
  induction l, offset using timRunsAux.induct ascending cmp length run hr with
  | case1 l offset h stop hl s hins =>
    rw [timRunsAux, dif_pos h]
    dsimp only
    rw [hins]
    have hiperm : s.Perm ((l.drop offset).take (min (offset + run) length - offset)) := by
      have := insertionsort_by_perm ascending cmp
        ((l.drop offset).take (min (offset + run) length - offset))
      rw [hins] at this
      exact this
    have hsplit : l.take offset ++ (l.drop offset).take (min (offset + run) length - offset)
        ++ l.drop (min (offset + run) length) = l := by
      have h2 : (l.drop offset).drop (min (offset + run) length - offset)
          = l.drop (min (offset + run) length) := by
        rw [List.drop_drop]
        have e : offset + (min (offset + run) length - offset) = min (offset + run) length := by
          omega
        rw [e]
      rw [List.append_assoc, ← h2, List.take_append_drop, List.take_append_drop]
    have : (l.take offset ++ s ++ l.drop (min (offset + run) length)).Perm l := by
      have hpp : (l.take offset ++ s ++ l.drop (min (offset + run) length)).Perm
          (l.take offset ++ (l.drop offset).take (min (offset + run) length - offset)
            ++ l.drop (min (offset + run) length)) :=
        List.Perm.append_right _ (List.Perm.append_left _ hiperm)
      exact hpp.trans (by rw [hsplit])
    exact this
  | case2 l offset h stop s hins ih =>
    rw [timRunsAux, dif_pos h]
    dsimp only
    rw [hins]
    have hiperm : s.Perm ((l.drop offset).take (min (offset + run) length - offset)) := by
      have := insertionsort_by_perm ascending cmp
        ((l.drop offset).take (min (offset + run) length - offset))
      rw [hins] at this
      exact this
    have hsplit : l.take offset ++ (l.drop offset).take (min (offset + run) length - offset)
        ++ l.drop (min (offset + run) length) = l := by
      have h2 : (l.drop offset).drop (min (offset + run) length - offset)
          = l.drop (min (offset + run) length) := by
        rw [List.drop_drop]
        have e : offset + (min (offset + run) length - offset) = min (offset + run) length := by
          omega
        rw [e]
      rw [List.append_assoc, ← h2, List.take_append_drop, List.take_append_drop]
    have hperm : (l.take offset ++ s ++ l.drop (min (offset + run) length)).Perm l := by
      have hpp : (l.take offset ++ s ++ l.drop (min (offset + run) length)).Perm
          (l.take offset ++ (l.drop offset).take (min (offset + run) length - offset)
            ++ l.drop (min (offset + run) length)) :=
        List.Perm.append_right _ (List.Perm.append_left _ hiperm)
      exact hpp.trans (by rw [hsplit])
    exact exPerm_perm ih hperm
  | case3 l offset h =>
    rw [timRunsAux, dif_neg h]
    exact List.Perm.refl l

theorem timsort_by_perm (l : List α) (run : Nat) :
    exPerm (timsort_by ascending cmp l run) l := by
  rw [timsort_by]
  by_cases h1 : l.length ≤ 1
  · rw [if_pos h1]; exact List.Perm.refl l
  rw [if_neg h1]
  by_cases h2 : l.length ≤ run
  · rw [if_pos h2]; exact insertionsort_by_perm ascending cmp l
  rw [if_neg h2]
  by_cases hr : 0 < run
  · rw [dif_pos hr]
    match ht : timRunsAux ascending cmp l.length run hr l 0 with
    | .error e =>
      have := timRunsAux_perm ascending cmp l.length run hr l 0
      rw [ht] at this
      match e with
      | (hh, l₂) => exact this
    | .ok l' =>
      have hperm : l'.Perm l := by
        have := timRunsAux_perm ascending cmp l.length run hr l 0
        rw [ht] at this
        exact this
      exact exPerm_perm (mergeSizes_perm ascending cmp l.length l' run hr) hperm
  · rw [dif_neg hr]
    exact List.Perm.refl l

end PermLemmas2

end Algocol

namespace Algocol

/-- C2: every sort entry point — `bubblesort`, `insertionsort`,
`selectionsort`, `mergesort`, `mergesort_recursively`, `quicksort`,
`quicksort_recursively`, `timsort`, and their `_by` variants — preserves the
multiset of elements of the slice for every direction, comparator and run
size, whether the call returns `Ok` or `Err`: the slice state after the call
(the `Ok` payload, or the state an `Err` leaves behind) is a permutation of
the input, so no element is created or destroyed. -/
theorem claim_C2_sorts_preserve_multiset {α β : Type} [LinearOrder β]
    (ascending : Bool) (cmp : α → α → Ordering) (l : List α) (lb : List β)
    (run : Nat) :
    exPerm (bubblesort_by ascending cmp l) l ∧
    exPerm (insertionsort_by ascending cmp l) l ∧
    exPerm (selectionsort_by ascending cmp l) l ∧
    exPerm (mergesort_by ascending cmp l) l ∧
    exPerm (mergesort_recursively_by ascending cmp l) l ∧
    exPerm (quicksort_by ascending cmp l) l ∧
    exPerm (quicksort_recursively_by ascending cmp l) l ∧
    exPerm (timsort_by ascending cmp l run) l ∧
    exPerm (bubblesort lb ascending) lb ∧
    exPerm (insertionsort lb ascending) lb ∧
    exPerm (selectionsort lb ascending) lb ∧
    exPerm (mergesort lb ascending) lb ∧
    exPerm (mergesort_recursively lb ascending) lb ∧
    exPerm (quicksort lb ascending) lb ∧
    exPerm (quicksort_recursively lb ascending) lb ∧
    exPerm (timsort lb ascending run) lb :=
  ⟨bubblesort_by_perm ascending cmp l,
   insertionsort_by_perm ascending cmp l,
   selectionsort_by_perm ascending cmp l,
   mergesort_by_perm ascending cmp l,
   mergesort_recursively_by_perm ascending cmp l,
   quicksort_by_perm ascending cmp l,
   quicksort_recursively_by_perm ascending cmp l,
   timsort_by_perm ascending cmp l run,
   bubblesort_by_perm ascending compare lb,
   insertionsort_by_perm ascending compare lb,
   selectionsort_by_perm ascending compare lb,
   mergesort_by_perm ascending compare lb,
   mergesort_recursively_by_perm ascending compare lb,
   quicksort_by_perm ascending compare lb,
   quicksort_recursively_by_perm ascending compare lb,
   timsort_by_perm ascending compare lb run⟩

end Algocol

namespace Algocol

section ChainHelpers

variable {α : Type _} (ascending : Bool) (cmp : α → α → Ordering)

theorem chain'_of_length_le_one {R : α → α → Prop} {l : List α} (h : l.length ≤ 1) :
    List.Chain' R l := by
  match l, h with
  | [], _ => exact List.chain'_nil
  | [a], _ => exact List.chain'_singleton a

theorem mem_of_getLast? {l : List α} {a : α} (h : a ∈ l.getLast?) : a ∈ l := by
  rw [List.getLast?_eq_getElem?] at h
  exact List.getElem?_mem h

theorem merge_chain {cmp : α → α → Ordering} (lc : LawfulCmp cmp) {ascending : Bool}
    {X Y : List α} (hX : List.Chain' (inOrd ascending cmp) X)
    (hY : List.Chain' (inOrd ascending cmp) Y) :
    List.Chain' (inOrd ascending cmp) (List.merge X Y (mergeLE ascending cmp)) := by
  haveI : IsTrans α (inOrd ascending cmp) := ⟨fun _ _ _ => lc.inOrd_trans⟩
  rw [List.chain'_iff_pairwise] at hX hY ⊢
  exact merge_pairwise lc X Y hX hY

theorem partCond_inOrd {a p : α} (h : partCond ascending cmp a p = true) :
    inOrd ascending cmp a p := by
  unfold partCond at h
  unfold inOrd
  cases ascending <;> cases hc : cmp a p <;>
    simp_all [priority.is_le, priority.is_ge]

theorem partCond_false_inOrd {cmp : α → α → Ordering} (lc : LawfulCmp cmp)
    {ascending : Bool} {a p : α}
    (h : partCond ascending cmp a p = false) : inOrd ascending cmp p a := by
  unfold partCond at h
  have hs := lc.symm a p
  unfold inOrd
  cases ascending <;> cases hc : cmp a p <;>
    simp_all [priority.is_le, priority.is_ge, Ordering.swap]

theorem noswap_inOrd {a b : α}
    (h : (if ascending then priority.is_gt (cmp a b) else priority.is_lt (cmp a b))
        = false) :
    inOrd ascending cmp a b := by
  unfold inOrd
  cases ascending <;> cases hc : cmp a b <;>
    simp_all [priority.is_gt, priority.is_lt]

theorem swap_inOrd {cmp : α → α → Ordering} (lc : LawfulCmp cmp)
    {ascending : Bool} {a b : α}
    (h : (if ascending then priority.is_gt (cmp a b) else priority.is_lt (cmp a b))
        = true) :
    inOrd ascending cmp b a := by
  have hs := lc.symm a b
  unfold inOrd
  cases ascending <;> cases hc : cmp a b <;>
    simp_all [priority.is_gt, priority.is_lt, Ordering.swap]

theorem scan_update_inOrd {x y : α}
    (h : (ascending && priority.is_lt (cmp x y)) = true
       ∨ (!ascending && priority.is_gt (cmp x y)) = true) :
    inOrd ascending cmp x y := by
  unfold inOrd
  cases ascending <;> cases hc : cmp x y <;>
    simp_all [priority.is_gt, priority.is_lt]

theorem scan_keep_inOrd {cmp : α → α → Ordering} (lc : LawfulCmp cmp)
    {ascending : Bool} {x y : α}
    (h1 : (ascending && priority.is_lt (cmp x y)) = false)
    (h2 : (!ascending && priority.is_gt (cmp x y)) = false) :
    inOrd ascending cmp y x := by
  have hs := lc.symm x y
  unfold inOrd
  cases ascending <;> cases hc : cmp x y <;>
    simp_all [priority.is_gt, priority.is_lt, Ordering.swap]

theorem seg_prefix {l : List α} {m s n : Nat} (h : s + n ≤ m) :
    ((l.take m).drop s).take n = (l.drop s).take n := by
  rw [List.drop_take, List.take_take]
  congr 1
  omega

theorem seg_append_left {A B : List α} {s n : Nat} (h : s + n ≤ A.length) :
    (((A ++ B).drop s).take n) = ((A.drop s).take n) := by
  rw [List.drop_append_of_le_length (by omega),
    List.take_append_of_le_length (by simp; omega)]

end ChainHelpers

end Algocol

namespace Algocol

section BubbleChain

variable {α : Type _} (ascending : Bool) (cmp : α → α → Ordering)

theorem getE_ok_getElem? {l : List α} {i : Nat} {a : α} (h : getE l i = .ok a) :
    l[i]? = some a := by
  unfold getE at h
  split at h
  · rename_i h'
    simp only [Except.ok.injEq] at h
    rw [List.getElem?_eq_getElem h', ← h]
    simp [List.get_eq_getElem]
  · simp at h

theorem drop_cons_of_getElem? {l : List α} {i : Nat} {a : α} (h : l[i]? = some a) :
    l.drop i = a :: l.drop (i + 1) := by
  have hi : i < l.length := by
    by_contra hn
    rw [List.getElem?_eq_none (by omega)] at h
    simp at h
  rw [List.drop_eq_getElem_cons hi]
  rw [List.getElem?_eq_getElem hi] at h
  injection h with h
  rw [h]

theorem bubblePass_flag (length : Nat) :
    ∀ (l : List α) (index : Nat) (s : Bool),
      1 ≤ index → length = l.length →
      ∀ l', bubblePass ascending cmp length l index s = .ok (l', true) →
      s = true ∧ l' = l ∧ List.Chain' (inOrd ascending cmp) (l.drop (index - 1)) := by
  intro l index s
  induction l, index, s using bubblePass.induct ascending cmp length with
  | case1 l index sorted h hl hget =>
    intro _ _ l' hok
    rw [bubblePass, dif_pos h, hget] at hok
    simp at hok
  | case2 l index sorted h a hga hl hgb =>
    intro _ _ l' hok
    rw [bubblePass, dif_pos h, hga, hgb] at hok
    simp at hok
  | case3 l index sorted h a hga b hgb hc hl hsw =>
    intro _ _ l' hok
    rw [bubblePass, dif_pos h, hga, hgb] at hok
    dsimp only at hok
    simp only [dite_eq_ite] at hc
    rw [if_pos hc, hsw] at hok
    simp at hok
  | case4 l index sorted h a hga b hgb hc l₂ hsw ih =>
    intro h1 hlen l' hok
    rw [bubblePass, dif_pos h, hga, hgb] at hok
    dsimp only at hok
    simp only [dite_eq_ite] at hc
    rw [if_pos hc, hsw] at hok
    dsimp only at hok
    have hlen2 : length = l₂.length := by
      rw [swapE_ok_length hsw, ← hlen]
    obtain ⟨hfalse, _, _⟩ := ih (by omega) hlen2 l' hok
    exact absurd hfalse (by simp)
  | case5 l index sorted h a hga b hgb hc ih =>
    intro h1 hlen l' hok
    rw [bubblePass, dif_pos h, hga, hgb] at hok
    dsimp only at hok
    simp only [dite_eq_ite] at hc
    rw [if_neg hc] at hok
    obtain ⟨hs, hl', hchain⟩ := ih (by omega) hlen l' hok
    refine ⟨hs, hl', ?_⟩
    have hda : l.drop (index - 1) = a :: l.drop index := by
      have := drop_cons_of_getElem? (getE_ok_getElem? hga)
      rw [(by omega : index - 1 + 1 = index)] at this
      exact this
    have hdb : l.drop index = b :: l.drop (index + 1) :=
      drop_cons_of_getElem? (getE_ok_getElem? hgb)
    rw [hda, hdb, List.chain'_cons]
    refine ⟨noswap_inOrd ascending cmp (Bool.eq_false_iff.mpr hc), ?_⟩
    rw [← hdb, (by omega : index = index + 1 - 1)]
    exact hchain
  | case6 l index sorted h =>
    intro h1 hlen l' hok
    rw [bubblePass, dif_neg h] at hok
    simp only [Except.ok.injEq, Prod.mk.injEq] at hok
    refine ⟨hok.2, hok.1.symm, ?_⟩
    apply chain'_of_length_le_one
    simp
    omega

theorem bubbleLoop_chain (length : Nat) :
    ∀ (fuel : Nat) (l : List α), length = l.length →
      ∀ l', bubbleLoop ascending cmp length fuel l = .ok l' →
      List.Chain' (inOrd ascending cmp) l' := by
  intro fuel
  induction fuel with
  | zero =>
    intro l _ l' hok
    simp only [bubbleLoop] at hok
    simp at hok
  | succ n ih =>
    intro l hlen l' hok
    rw [bubbleLoop] at hok
    match hbp : bubblePass ascending cmp length l 1 true with
    | .error e =>
      rw [hbp] at hok
      simp at hok
    | .ok (l₂, sorted) =>
      rw [hbp] at hok
      dsimp only at hok
      by_cases hs : sorted = true
      · rw [if_pos hs] at hok
        simp only [Except.ok.injEq] at hok
        subst hs
        obtain ⟨_, rfl, hchain⟩ := bubblePass_flag ascending cmp length l 1 true
          (by omega) hlen l₂ hbp
        rw [← hok]
        simpa using hchain
      · rw [if_neg hs] at hok
        have hperm : l₂.Perm l :=
          (bubblePass_perm ascending cmp length l 1 true).1 l₂ sorted hbp
        exact ih l₂ (by rw [hperm.length_eq, ← hlen]) l' hok

theorem bubblesort_by_chain {l l' : List α}
    (hok : bubblesort_by ascending cmp l = .ok l') :
    List.Chain' (inOrd ascending cmp) l' := by
  rw [bubblesort_by] at hok
  by_cases h : l.length ≤ 1
  · rw [if_pos h] at hok
    simp only [Except.ok.injEq] at hok
    subst hok
    exact chain'_of_length_le_one h
  · rw [if_neg h] at hok
    exact bubbleLoop_chain ascending cmp l.length (l.length * l.length + 1) l rfl l' hok

end BubbleChain

end Algocol

namespace Algocol

section InsertChain

variable {α : Type _}

theorem chain'_iff_getElem? {R : α → α → Prop} {l : List α} :
    List.Chain' R l ↔ ∀ i a b, l[i]? = some a → l[i+1]? = some b → R a b := by
  rw [List.chain'_iff_get]
  constructor
  · intro h i a b ha hb
    have hib : i + 1 < l.length := by
      by_contra hn
      rw [List.getElem?_eq_none (by omega)] at hb
      simp at hb
    have hr := h i (by omega)
    rw [List.getElem?_eq_getElem (by omega : i < l.length)] at ha
    rw [List.getElem?_eq_getElem hib] at hb
    injection ha with ha
    injection hb with hb
    rw [← ha, ← hb]
    simpa [List.get_eq_getElem] using hr
  · intro h i hi
    apply h i
    · rw [List.getElem?_eq_getElem (by omega : i < l.length)]
      simp [List.get_eq_getElem]
    · rw [List.getElem?_eq_getElem (by omega : i + 1 < l.length)]
      simp [List.get_eq_getElem]

theorem swapE_getElem? {l l₂ : List α} {i j : Nat} (h : swapE l i j = .ok l₂)
    (k : Nat) :
    l₂[k]? = if k = j then l[i]? else if k = i then l[j]? else l[k]? := by
  unfold swapE at h
  split at h
  case isFalse => simp at h
  rename_i hi
  split at h
  case isFalse => simp at h
  rename_i hj
  simp only [Except.ok.injEq] at h
  subst h
  by_cases hkj : k = j
  · subst hkj
    rw [if_pos rfl, List.getElem?_set_self (by simp; omega),
      List.getElem?_eq_getElem hi]
    simp [List.get_eq_getElem]
  · rw [if_neg hkj, List.getElem?_set_ne (fun he => hkj he.symm)]
    by_cases hki : k = i
    · subst hki
      rw [if_pos rfl, List.getElem?_set_self (by omega),
        List.getElem?_eq_getElem hj]
      simp [List.get_eq_getElem]
    · rw [if_neg hki, List.getElem?_set_ne (fun he => hki he.symm)]

theorem insertLoop_pairs {ascending : Bool} {cmp : α → α → Ordering}
    (lc : LawfulCmp cmp) (n : Nat) :
    ∀ (l : List α) (loc : Nat),
      loc + 1 ≤ n →
      (∀ i a b, i + 1 ≤ loc → l[i]? = some a → l[i+1]? = some b →
        inOrd ascending cmp a b) →
      (∀ i a b, loc + 1 ≤ i → i < n → l[i]? = some a → l[i+1]? = some b →
        inOrd ascending cmp a b) →
      (∀ a b, loc + 2 ≤ n → l[loc]? = some a → l[loc+2]? = some b →
        inOrd ascending cmp a b) →
      ∀ l', insertLoop ascending cmp l loc = .ok l' →
        l'.length = l.length ∧
        (∀ i a b, i < n → l'[i]? = some a → l'[i+1]? = some b →
          inOrd ascending cmp a b) := by
  intro l loc
  induction l, loc using insertLoop.induct ascending cmp with
  | case1 l loc hl hget =>
    intro _ _ _ _ l' hok
    rw [insertLoop, hget] at hok
    simp at hok
  | case2 l loc a hga hl hgb =>
    intro _ _ _ _ l' hok
    rw [insertLoop, hga, hgb] at hok
    simp at hok
  | case3 l loc a hga b hgb hc hl hsw =>
    intro _ _ _ _ l' hok
    rw [insertLoop, hga, hgb] at hok
    dsimp only at hok
    simp only [dite_eq_ite] at hc
    rw [if_pos hc, hsw] at hok
    simp at hok
  | case4 l a b hc l₂ hga hgb hsw =>
    intro hn h1 h2 h3 l' hok
    rw [insertLoop, hga, hgb] at hok
    dsimp only at hok
    simp only [dite_eq_ite] at hc
    rw [if_pos hc, hsw] at hok
    dsimp only at hok
    rw [dif_pos rfl] at hok
    simp only [Except.ok.injEq] at hok
    subst hok
    refine ⟨swapE_ok_length hsw, ?_⟩
    intro i x y hi hx hy
    rw [swapE_getElem? hsw] at hx
    rw [swapE_getElem? hsw] at hy
    simp only [Nat.zero_add] at hx hy
    by_cases hi0 : i = 0
    · subst hi0
      simp only [if_neg (by omega : (0:Nat) ≠ 1), if_pos rfl, if_pos rfl] at hx hy
      have hxa := getE_ok_getElem? hga
      have hxb := getE_ok_getElem? hgb
      simp only [Nat.zero_add] at hxb
      rw [hxb] at hx
      rw [hxa] at hy
      injection hx with hx
      injection hy with hy
      rw [← hx, ← hy]
      exact swap_inOrd lc hc
    · by_cases hi1 : i = 1
      · subst hi1
        simp only [if_pos rfl, if_neg (by omega : (2:Nat) ≠ 1),
          if_neg (by omega : (2:Nat) ≠ 0)] at hx hy
        have hxa := getE_ok_getElem? hga
        rw [hxa] at hx
        injection hx with hx
        rw [← hx]
        exact h3 a y (by omega) hxa hy
      · simp only [if_neg (by omega : i ≠ 1), if_neg hi0,
          if_neg (by omega : i + 1 ≠ 1), if_neg (by omega : i + 1 ≠ 0)] at hx hy
        exact h2 i x y (by omega) hi hx hy
  | case5 l loc a hga b hgb hc l₂ hsw hne ih =>
    intro hn h1 h2 h3 l' hok
    rw [insertLoop, hga, hgb] at hok
    dsimp only at hok
    simp only [dite_eq_ite] at hc
    rw [if_pos hc, hsw] at hok
    dsimp only at hok
    rw [dif_neg hne] at hok
    have hxa := getE_ok_getElem? hga
    have hxb := getE_ok_getElem? hgb
    have hg2 := swapE_getElem? hsw
    have hlen2 := swapE_ok_length hsw
    obtain ⟨hlen', hpairs⟩ := ih (by omega)
      (fun i x y hil hx hy => by
        rw [hg2 i, if_neg (by omega), if_neg (by omega)] at hx
        rw [hg2 (i+1), if_neg (by omega), if_neg (by omega)] at hy
        exact h1 i x y (by omega) hx hy)
      (fun i x y hli hin hx hy => by
        rw [hg2 i] at hx
        rw [hg2 (i+1)] at hy
        have hloc : loc - 1 + 1 = loc := by omega
        rw [hloc] at hli
        by_cases hil : i = loc
        · subst hil
          rw [if_neg (by omega), if_pos rfl, hxb] at hx
          rw [if_pos rfl, hxa] at hy
          injection hx with hx
          injection hy with hy
          rw [← hx, ← hy]
          exact swap_inOrd lc hc
        · by_cases hil2 : i = loc + 1
          · subst hil2
            rw [if_pos rfl, hxa] at hx
            rw [if_neg (by omega), if_neg (by omega)] at hy
            injection hx with hx
            rw [← hx]
            exact h3 a y (by omega) hxa hy
          · rw [if_neg (by omega), if_neg (by omega)] at hx
            rw [if_neg (by omega), if_neg (by omega)] at hy
            exact h2 i x y (by omega) hin hx hy)
      (fun x y hln hx hy => by
        have hloc : loc - 1 + 2 = loc + 1 := by omega
        rw [hg2 (loc - 1), if_neg (by omega), if_neg (by omega)] at hx
        rw [hloc, hg2 (loc + 1), if_pos rfl, hxa] at hy
        injection hy with hy
        rw [← hy]
        exact h1 (loc - 1) x a (by omega) hx
          (by rw [(by omega : loc - 1 + 1 = loc)]; exact hxa))
      l' hok
    exact ⟨by omega, hpairs⟩
  | case6 l loc a hga b hgb hc =>
    intro hn h1 h2 h3 l' hok
    rw [insertLoop, hga, hgb] at hok
    dsimp only at hok
    simp only [dite_eq_ite] at hc
    rw [if_neg hc] at hok
    simp only [Except.ok.injEq] at hok
    subst hok
    refine ⟨rfl, ?_⟩
    intro i x y hi hx hy
    by_cases hil : i + 1 ≤ loc
    · exact h1 i x y hil hx hy
    · by_cases hie : i = loc
      · subst hie
        have hxa := getE_ok_getElem? hga
        have hxb := getE_ok_getElem? hgb
        rw [hxa] at hx
        rw [hxb] at hy
        injection hx with hx
        injection hy with hy
        rw [← hx, ← hy]
        exact noswap_inOrd ascending cmp (Bool.eq_false_iff.mpr hc)
      · exact h2 i x y (by omega) hi hx hy

theorem insertGo_chain {ascending : Bool} {cmp : α → α → Ordering}
    (lc : LawfulCmp cmp) (length : Nat) :
    ∀ (l : List α) (index : Nat),
      1 ≤ index → length = l.length →
      (∀ i a b, i + 1 < index → l[i]? = some a → l[i+1]? = some b →
        inOrd ascending cmp a b) →
      ∀ l', insertGo ascending cmp length l index = .ok l' →
        (∀ i a b, i + 1 < length → l'[i]? = some a → l'[i+1]? = some b →
          inOrd ascending cmp a b) ∧ l'.length = l.length := by
  intro l index
  induction l, index using insertGo.induct ascending cmp length with
  | case1 l index h e hil =>
    intro _ _ _ l' hok
    rw [insertGo, dif_pos h, hil] at hok
    simp at hok
  | case2 l index h l₂ hil ih =>
    intro h1 hlen hinv l' hok
    rw [insertGo, dif_pos h, hil] at hok
    obtain ⟨hlen2, hpairs⟩ := insertLoop_pairs lc index l (index - 1)
      (by omega)
      (fun i x y hil' hx hy => hinv i x y (by omega) hx hy)
      (fun i x y hli hin hx hy => by omega)
      (fun x y hln hx hy => by omega)
      l₂ hil
    obtain ⟨hres, hlen3⟩ := ih (by omega) (by omega)
      (fun i x y hii hx hy => hpairs i x y (by omega) hx hy)
      l' hok
    exact ⟨hres, by omega⟩
  | case3 l index h =>
    intro h1 hlen hinv l' hok
    rw [insertGo, dif_neg h] at hok
    simp only [Except.ok.injEq] at hok
    subst hok
    exact ⟨fun i x y hi hx hy => hinv i x y (by omega) hx hy, rfl⟩

theorem insertionsort_by_chain {ascending : Bool} {cmp : α → α → Ordering}
    (lc : LawfulCmp cmp) {l l' : List α}
    (hok : insertionsort_by ascending cmp l = .ok l') :
    List.Chain' (inOrd ascending cmp) l' := by
  rw [insertionsort_by] at hok
  by_cases h : l.length ≤ 1
  · rw [if_pos h] at hok
    simp only [Except.ok.injEq] at hok
    subst hok
    exact chain'_of_length_le_one h
  · rw [if_neg h] at hok
    obtain ⟨hpairs, hlen⟩ := insertGo_chain lc l.length l 1 (by omega) rfl
      (fun i x y hi hx hy => by omega) l' hok
    rw [chain'_iff_getElem?]
    intro i x y hx hy
    have hib : i + 1 < l'.length := by
      by_contra hn
      rw [List.getElem?_eq_none (by omega)] at hy
      simp at hy
    exact hpairs i x y (by omega) hx hy

end InsertChain

end Algocol

namespace Algocol

section SelectChain

variable {α : Type _}

theorem selScan_spec {ascending : Bool} {cmp : α → α → Ordering}
    (lc : LawfulCmp cmp) (l : List α) (subseq : Nat) :
    ∀ (extreme index : Nat),
      extreme < l.length → subseq ≤ extreme →
      (∀ j b a, subseq < j → j < index → l[j]? = some b → l[extreme]? = some a →
        inOrd ascending cmp a b) →
      (∀ b a, l[subseq]? = some b → l[extreme]? = some a → inOrd ascending cmp a b) →
      ∀ e, selScan ascending cmp l subseq extreme index = .ok e →
        subseq ≤ e ∧ e < l.length ∧
        (∀ j b a, subseq ≤ j → j < l.length → l[j]? = some b → l[e]? = some a →
          inOrd ascending cmp a b) := by
  intro extreme index
  induction extreme, index using selScan.induct ascending cmp l subseq with
  | case1 extreme index h hskip ih =>
    intro hel hse hinv hsub e hok
    rw [selScan, dif_pos h, if_pos hskip] at hok
    exact ih hel hse (fun j b a h1 h2 hb ha => by omega) hsub e hok
  | case2 extreme index h hskip hl hget =>
    intro hel hse hinv hsub e hok
    rw [selScan, dif_pos h, if_neg hskip, hget] at hok
    simp at hok
  | case3 extreme index h hskip b hgb hl hgx =>
    intro hel hse hinv hsub e hok
    rw [selScan, dif_pos h, if_neg hskip, hgb, hgx] at hok
    simp at hok
  | case4 extreme index h hskip b hgb x hgx hcond ih =>
    intro hel hse hinv hsub e hok
    rw [selScan, dif_pos h, if_neg hskip, hgb, hgx] at hok
    dsimp only at hok
    rw [if_pos hcond] at hok
    have hib := getE_ok_getElem? hgb
    have hix := getE_ok_getElem? hgx
    have hbx : inOrd ascending cmp b x := scan_update_inOrd ascending cmp (Or.inl hcond)
    refine ih h (by omega) ?_ ?_ e hok
    · intro j c a h1 h2 hc ha
      rw [hib] at ha
      injection ha with ha
      by_cases hji : j = index
      · subst hji
        rw [hib] at hc
        injection hc with hc
        rw [← ha, ← hc]
        exact lc.inOrd_refl ascending b
      · have := hinv j c x h1 (by omega) hc hix
        rw [← ha]
        exact lc.inOrd_trans hbx this
    · intro c a hc ha
      rw [hib] at ha
      injection ha with ha
      rw [← ha]
      exact lc.inOrd_trans hbx (hsub c x hc hix)
  | case5 extreme index h hskip b hgb x hgx hc1 hcond ih =>
    intro hel hse hinv hsub e hok
    rw [selScan, dif_pos h, if_neg hskip, hgb, hgx] at hok
    dsimp only at hok
    rw [if_neg hc1, if_pos hcond] at hok
    have hib := getE_ok_getElem? hgb
    have hix := getE_ok_getElem? hgx
    have hbx : inOrd ascending cmp b x := scan_update_inOrd ascending cmp (Or.inr hcond)
    refine ih h (by omega) ?_ ?_ e hok
    · intro j c a h1 h2 hc ha
      rw [hib] at ha
      injection ha with ha
      by_cases hji : j = index
      · subst hji
        rw [hib] at hc
        injection hc with hc
        rw [← ha, ← hc]
        exact lc.inOrd_refl ascending b
      · have := hinv j c x h1 (by omega) hc hix
        rw [← ha]
        exact lc.inOrd_trans hbx this
    · intro c a hc ha
      rw [hib] at ha
      injection ha with ha
      rw [← ha]
      exact lc.inOrd_trans hbx (hsub c x hc hix)
  | case6 extreme index h hskip b hgb x hgx hc1 hc2 ih =>
    intro hel hse hinv hsub e hok
    rw [selScan, dif_pos h, if_neg hskip, hgb, hgx] at hok
    dsimp only at hok
    rw [if_neg hc1, if_neg hc2] at hok
    have hib := getE_ok_getElem? hgb
    have hix := getE_ok_getElem? hgx
    have hxb : inOrd ascending cmp x b :=
      scan_keep_inOrd lc (Bool.eq_false_iff.mpr hc1) (Bool.eq_false_iff.mpr hc2)
    refine ih hel hse ?_ hsub e hok
    intro j c a h1 h2 hc ha
    by_cases hji : j = index
    · subst hji
      rw [hib] at hc
      injection hc with hc
      rw [hix] at ha
      injection ha with ha
      rw [← ha, ← hc]
      exact hxb
    · exact hinv j c a h1 (by omega) hc ha
  | case7 extreme index h =>
    intro hel hse hinv hsub e hok
    rw [selScan, dif_neg h] at hok
    simp only [Except.ok.injEq] at hok
    subst hok
    refine ⟨hse, hel, ?_⟩
    intro j c a h1 h2 hc ha
    by_cases hjs : j = subseq
    · subst hjs
      exact hsub c a hc ha
    · exact hinv j c a (by omega) (by omega) hc ha

theorem selGo_chain {ascending : Bool} {cmp : α → α → Ordering}
    (lc : LawfulCmp cmp) (length : Nat) :
    ∀ (l : List α) (subseq : Nat),
      length = l.length →
      (∀ i a b, i + 1 < subseq → l[i]? = some a → l[i+1]? = some b →
        inOrd ascending cmp a b) →
      (∀ i a, i < subseq → l[i]? = some a → ∀ b ∈ l.drop subseq,
        inOrd ascending cmp a b) →
      ∀ l', selGo ascending cmp length l subseq = .ok l' →
        List.Chain' (inOrd ascending cmp) l' := by
  intro l subseq
  induction l, subseq using selGo.induct ascending cmp length with
  | case1 l subseq h hl hscan =>
    intro hlen ha hb l' hok
    rw [selGo, dif_pos h, hscan] at hok
    simp at hok
  | case2 l subseq h e hscan k htr =>
    intro hlen ha hb l' hok
    rw [selGo, dif_pos h, hscan] at hok
    dsimp only at hok
    rw [htr] at hok
    simp at hok
  | case3 l subseq h e hscan l₂ htr ih =>
    intro hlen ha hb l' hok
    rw [selGo, dif_pos h, hscan] at hok
    dsimp only at hok
    rw [htr] at hok
    have hsl : subseq < l.length := by omega
    obtain ⟨hse, hel, hmin⟩ := selScan_spec lc l subseq subseq 0 hsl (Nat.le_refl _)
      (fun j b a h1 h2 hb' ha' => by omega)
      (fun b a hb' ha' => by
        rw [hb'] at ha'
        injection ha' with ha'
        rw [← ha']
        exact lc.inOrd_refl ascending b)
      e hscan
    set X := (l.drop subseq).take (e - subseq) with hXdef
    have hXlen : X.length = e - subseq := by
      rw [hXdef]
      simp
      omega
    have hAlen : (l.take subseq).length = subseq := by
      simp
      omega
    have he1 : (l.drop subseq).drop (e - subseq) = l.drop e := by
      rw [List.drop_drop]
      congr 1
      omega
    have he2 : l.drop e = l[e] :: l.drop (e+1) := List.drop_eq_getElem_cons hel
    have hd : l.drop subseq = X ++ l[e] :: l.drop (e+1) := by
      conv_lhs => rw [← List.take_append_drop (e - subseq) (l.drop subseq)]
      rw [he1, he2]
    have hld : l = l.take subseq ++ (X ++ l[e] :: l.drop (e+1)) := by
      conv_lhs => rw [← List.take_append_drop subseq l]
      rw [hd]
    have hts := transfer_shape_right (l.take subseq) X (l[e]) (l.drop (e+1))
    rw [hAlen, hXlen, (by omega : subseq + (e - subseq) = e), ← hld] at hts
    rw [hts] at htr
    injection htr with htr
    have hl₂ : l₂ = l.take subseq ++ l[e] :: (X ++ l.drop (e+1)) := htr.symm
    have hge : l[e]? = some (l[e]) := List.getElem?_eq_getElem hel
    have hmem_sub : ∀ b ∈ X ++ l.drop (e+1), b ∈ l.drop subseq := by
      intro b hbm
      rw [hd]
      rcases List.mem_append.mp hbm with hbm | hbm
      · exact List.mem_append.mpr (Or.inl hbm)
      · exact List.mem_append.mpr (Or.inr (List.mem_cons_of_mem _ hbm))
    have hgetlow : ∀ i, i < subseq → l₂[i]? = l[i]? := by
      intro i hi
      rw [hl₂, List.getElem?_append_left (by omega : i < (l.take subseq).length),
        List.getElem?_take]
      rw [if_pos hi]
    have hgm : l₂[subseq]? = some (l[e]) := by
      rw [hl₂, List.getElem?_append_right (by omega : (l.take subseq).length ≤ subseq)]
      rw [hAlen]
      simp
    have hdrop2 : l₂.drop (subseq + 1) = X ++ l.drop (e+1) := by
      rw [hl₂]
      have : l.take subseq ++ l[e] :: (X ++ l.drop (e+1))
          = (l.take subseq ++ [l[e]]) ++ (X ++ l.drop (e+1)) := by simp
      rw [this, List.drop_left' (by simp; omega)]
    have hmin' : ∀ b ∈ l.drop subseq, inOrd ascending cmp (l[e]) b := by
      intro b hbm
      rw [List.mem_iff_getElem?] at hbm
      obtain ⟨k, hk⟩ := hbm
      rw [List.getElem?_drop] at hk
      have hkb : subseq + k < l.length := by
        by_contra hn
        rw [List.getElem?_eq_none (by omega)] at hk
        simp at hk
      exact hmin (subseq + k) b (l[e]) (by omega) hkb hk hge
    have hlen₂ : length = l₂.length := by
      rw [hl₂]
      simp [hXlen]
      omega
    exact ih hlen₂
      (fun i x y hi hx hy => by
        by_cases hi1 : i + 1 < subseq
        · rw [hgetlow i (by omega)] at hx
          rw [hgetlow (i+1) (by omega)] at hy
          exact ha i x y hi1 hx hy
        · have hieq : i + 1 = subseq := by omega
          rw [hgetlow i (by omega)] at hx
          rw [hieq, hgm] at hy
          injection hy with hy
          rw [← hy]
          refine hb i x (by omega) hx (l[e]) ?_
          rw [hd]
          exact List.mem_append.mpr (Or.inr (List.mem_cons_self _ _)))
      (fun i a hi hA b hbm => by
        rw [hdrop2] at hbm
        have hbm' : b ∈ l.drop subseq := hmem_sub b hbm
        by_cases his : i < subseq
        · rw [hgetlow i his] at hA
          exact hb i a his hA b hbm'
        · have hieq : i = subseq := by omega
          rw [hieq, hgm] at hA
          injection hA with hA
          rw [← hA]
          exact hmin' b hbm')
      l' hok
  | case4 l subseq h =>
    intro hlen ha hb l' hok
    rw [selGo, dif_neg h] at hok
    simp only [Except.ok.injEq] at hok
    subst hok
    rw [chain'_iff_getElem?]
    intro i x y hx hy
    have hib : i + 1 < l.length := by
      by_contra hn
      rw [List.getElem?_eq_none (by omega)] at hy
      simp at hy
    exact ha i x y (by omega) hx hy

end SelectChain

end Algocol

namespace Algocol

section MergeFamilyChain

variable {α : Type _}

theorem selectionsort_by_chain {ascending : Bool} {cmp : α → α → Ordering}
    (lc : LawfulCmp cmp) {l l' : List α}
    (hok : selectionsort_by ascending cmp l = .ok l') :
    List.Chain' (inOrd ascending cmp) l' := by
  rw [selectionsort_by] at hok
  by_cases h : l.length ≤ 1
  · rw [if_pos h] at hok
    simp only [Except.ok.injEq] at hok
    subst hok
    exact chain'_of_length_le_one h
  · rw [if_neg h] at hok
    exact selGo_chain lc l.length l 0 rfl
      (fun i a b hi hx hy => by omega)
      (fun i a hi hA b hbm => by omega)
      l' hok

theorem mergesort_recursively_by_chain {ascending : Bool} {cmp : α → α → Ordering}
    (lc : LawfulCmp cmp) :
    ∀ (l : List α), ∀ l', mergesort_recursively_by ascending cmp l = .ok l' →
      List.Chain' (inOrd ascending cmp) l' := by
  intro l
  induction l using mergesort_recursively_by.induct ascending cmp with
  | case1 x len h =>
    intro l' hok
    rw [mergesort_recursively_by, if_pos h] at hok
    simp only [Except.ok.injEq] at hok
    subst hok
    exact chain'_of_length_le_one h
  | case2 x len h mid hl s hrec ih =>
    intro l' hok
    rw [mergesort_recursively_by, if_neg h] at hok
    dsimp only at hok
    rw [hrec] at hok
    simp at hok
  | case3 x len h mid s₁ hrec1 hl s₂ hrec2 ih1 ih2 =>
    intro l' hok
    rw [mergesort_recursively_by, if_neg h] at hok
    dsimp only at hok
    rw [hrec1, hrec2] at hok
    simp at hok
  | case4 x len h mid s₁ hrec1 s₂ hrec2 ih1 ih2 =>
    intro l' hok
    rw [mergesort_recursively_by, if_neg h] at hok
    dsimp only at hok
    rw [hrec1, hrec2] at hok
    dsimp only at hok
    have hp1 : s₁.Perm (x.take (x.length / 2)) := by
      have := mergesort_recursively_by_perm ascending cmp (x.take (x.length / 2))
      rw [hrec1] at this
      exact this
    have hp2 : s₂.Perm (x.drop (x.length / 2)) := by
      have := mergesort_recursively_by_perm ascending cmp (x.drop (x.length / 2))
      rw [hrec2] at this
      exact this
    have hl1 : s₁.length = x.length / 2 := by
      rw [hp1.length_eq]
      simp
      omega
    have hl2 : s₂.length = x.length - x.length / 2 := by
      rw [hp2.length_eq]
      simp
    have hxl : 2 ≤ x.length := by omega
    have hms := @merge_spec _ ascending cmp (s₁ ++ s₂)
      0 (x.length / 2 - 1) (x.length - 1)
      (by omega) (by simp; omega) (by simp; omega)
    rw [hms] at hok
    simp only [Except.ok.injEq] at hok
    have hX : ((s₁ ++ s₂).drop 0).take (x.length / 2 - 1 + 1 - 0) = s₁ := by
      rw [List.drop_zero, (by omega : x.length / 2 - 1 + 1 - 0 = x.length / 2), ← hl1,
        List.take_left]
    have hY : ((s₁ ++ s₂).drop (x.length / 2 - 1 + 1)).take
        (x.length - 1 - (x.length / 2 - 1)) = s₂ := by
      rw [(by omega : x.length - 1 - (x.length / 2 - 1) = x.length - x.length / 2),
        (by omega : x.length / 2 - 1 + 1 = x.length / 2), ← hl2, ← hl1,
        List.drop_left, List.take_length]
    have hdr : (s₁ ++ s₂).drop (x.length - 1 + 1) = [] :=
      List.drop_eq_nil_of_le (by simp; omega)
    rw [hX, hY, hdr, List.take_zero] at hok
    rw [← hok]
    simpa using merge_chain lc (ih1 s₁ hrec1) (ih2 s₂ hrec2)

theorem mergePassAux_chain {ascending : Bool} {cmp : α → α → Ordering}
    (lc : LawfulCmp cmp) (length size : Nat) (hs : 0 < size) :
    ∀ (l : List α) (left : Nat),
      length = l.length →
      (∃ m, left = 2 * size * m) →
      (∀ k, 2 * size * k < left →
        List.Chain' (inOrd ascending cmp) ((l.drop (2 * size * k)).take (2 * size))) →
      (∀ k, List.Chain' (inOrd ascending cmp) ((l.drop (left + size * k)).take size)) →
      ∀ l', mergePassAux ascending cmp length size hs l left = .ok l' →
        ∀ k, List.Chain' (inOrd ascending cmp) ((l'.drop (2 * size * k)).take (2 * size)) := by
  intro l left
  induction l, left using mergePassAux.induct ascending cmp length size hs with
  | case1 l left h e hm =>
    intro hlen halign hpre hsuf l' hok
    rw [mergePassAux, dif_pos h, hm] at hok
    simp at hok
  | case2 l left h l₂ hm ih =>
    intro hlen halign hpre hsuf l' hok
    obtain ⟨m, hmv⟩ := halign
    rw [mergePassAux, dif_pos h, hm] at hok
    have hlm : left ≤ min (left + size - 1) (length - 1) := by omega
    have hmr : min (left + size - 1) (length - 1)
        ≤ min (left + 2 * size - 1) (length - 1) := by omega
    have hrl : min (left + 2 * size - 1) (length - 1) < l.length := by omega
    have hms := @merge_spec _ ascending cmp l left
      (min (left + size - 1) (length - 1))
      (min (left + 2 * size - 1) (length - 1)) hlm hmr hrl
    rw [hms] at hm
    injection hm with hm
    set mid := min (left + size - 1) (length - 1) with hmid
    set right := min (left + 2 * size - 1) (length - 1) with hright
    set X := (l.drop left).take (mid + 1 - left) with hXdef
    set Y := (l.drop (mid + 1)).take (right - mid) with hYdef
    set M := List.merge X Y (mergeLE ascending cmp) with hMdef
    have hXchain : List.Chain' (inOrd ascending cmp) X := by
      have h0 := hsuf 0
      simp only [Nat.mul_zero, Nat.add_zero] at h0
      have hXe : X = (l.drop left).take size := by
        by_cases hc : left + size ≤ length
        · rw [hXdef]
          congr 1
          omega
        · rw [hXdef, List.take_of_length_le (by simp; omega),
            List.take_of_length_le (by simp; omega)]
      rw [hXe]
      exact h0
    have hYchain : List.Chain' (inOrd ascending cmp) Y := by
      by_cases hc : left + size ≤ length
      · have h1 := hsuf 1
        simp only [Nat.mul_one] at h1
        have hYe : Y = (l.drop (left + size)).take size := by
          by_cases hc2 : left + 2 * size ≤ length
          · rw [hYdef]
            have e1 : mid + 1 = left + size := by omega
            have e2 : right - mid = size := by omega
            rw [e1, e2]
          · rw [hYdef]
            have e1 : mid + 1 = left + size := by omega
            rw [e1, List.take_of_length_le (by simp; omega),
              List.take_of_length_le (by simp; omega)]
        rw [hYe]
        exact h1
      · have hYe : Y = [] := by
          rw [hYdef]
          have : right - mid = 0 := by omega
          rw [this, List.take_zero]
        rw [hYe]
        exact List.chain'_nil
    have hMchain : List.Chain' (inOrd ascending cmp) M := merge_chain lc hXchain hYchain
    have hMlen : M.length = right + 1 - left := by
      rw [hMdef, List.length_merge, hXdef, hYdef]
      simp
      omega
    have hAlen : (l.take left).length = left := by
      simp
      omega
    have hl₂ : l₂ = l.take left ++ M ++ l.drop (right + 1) := hm.symm
    have hlen₂ : length = l₂.length := by
      rw [hl₂]
      simp
      omega
    have hdropA : ∀ d, right + 1 ≤ d → l₂.drop d = l.drop d := by
      intro d hd
      have hAM : (l.take left ++ M).length = right + 1 := by
        simp
        omega
      have h1 : l₂.drop (right + 1) = l.drop (right + 1) := by
        rw [hl₂, List.drop_left' hAM]
      have h2 : (l₂.drop (right + 1)).drop (d - (right + 1)) = l₂.drop d := by
        rw [List.drop_drop]
        congr 1
        omega
      have h3 : (l.drop (right + 1)).drop (d - (right + 1)) = l.drop d := by
        rw [List.drop_drop]
        congr 1
        omega
      rw [← h2, ← h3, h1]
    refine ih hlen₂ ⟨m + 1, by rw [hmv]; ring⟩ ?_ ?_ l' hok
    · intro k hk
      have hkm : k ≤ m := by
        by_contra hn
        have h1 : m + 1 ≤ k := by omega
        have h2 : 2 * size * (m + 1) ≤ 2 * size * k := Nat.mul_le_mul_left _ h1
        have h3 : 2 * size * (m + 1) = 2 * size * m + 2 * size := by ring
        omega
      by_cases hkm2 : k = m
      · subst hkm2
        have hstart : 2 * size * k = left := by omega
        rw [hstart, hl₂, List.append_assoc, List.drop_left' hAlen]
        have hMB : (M ++ l.drop (right + 1)).take (2 * size) = M := by
          by_cases hc : left + 2 * size ≤ length
          · have hMl2 : M.length = 2 * size := by omega
            rw [← hMl2, List.take_left]
          · have hdr : l.drop (right + 1) = [] :=
              List.drop_eq_nil_of_le (by omega)
            rw [hdr, List.append_nil, List.take_of_length_le (by omega)]
        rw [hMB]
        exact hMchain
      · have hkm3 : k < m := by omega
        have hkend : 2 * size * k + 2 * size ≤ left := by
          have h1 : 2 * size * (k + 1) ≤ 2 * size * m := Nat.mul_le_mul_left _ (by omega)
          have h2 : 2 * size * (k + 1) = 2 * size * k + 2 * size := by ring
          omega
        rw [hl₂, List.append_assoc,
          seg_append_left (by omega : 2 * size * k + 2 * size ≤ (l.take left).length),
          seg_prefix (by omega : 2 * size * k + 2 * size ≤ left)]
        exact hpre k (by omega)
    · intro k
      have hde : l₂.drop (left + 2 * size + size * k) = l.drop (left + 2 * size + size * k) :=
        hdropA _ (by omega)
      rw [hde]
      have h2 := hsuf (k + 2)
      have e1 : left + size * (k + 2) = left + 2 * size + size * k := by ring
      rw [e1] at h2
      exact h2
  | case3 l left h =>
    intro hlen halign hpre hsuf l' hok
    rw [mergePassAux, dif_neg h] at hok
    simp only [Except.ok.injEq] at hok
    subst hok
    intro k
    by_cases hk : 2 * size * k < left
    · exact hpre k hk
    · rw [List.drop_eq_nil_of_le (by omega), List.take_nil]
      exact List.chain'_nil

theorem mergeSizes_chain {ascending : Bool} {cmp : α → α → Ordering}
    (lc : LawfulCmp cmp) (length : Nat) :
    ∀ (l : List α) (size : Nat) (hs : 0 < size),
      length = l.length →
      (∀ k, List.Chain' (inOrd ascending cmp) ((l.drop (size * k)).take size)) →
      ∀ l', mergeSizes ascending cmp length l size hs = .ok l' →
        List.Chain' (inOrd ascending cmp) l' := by
  intro l size hs
  induction l, size, hs using mergeSizes.induct ascending cmp length with
  | case1 l size hs h e hm =>
    intro hlen hblocks l' hok
    rw [mergeSizes, dif_pos h, hm] at hok
    simp at hok
  | case2 l size hs h l₂ hm ih =>
    intro hlen hblocks l' hok
    rw [mergeSizes, dif_pos h, hm] at hok
    have hres := mergePassAux_chain lc length size hs l 0 hlen ⟨0, by omega⟩
      (fun k hk => by omega)
      (fun k => by
        have := hblocks k
        rw [(by omega : size * k = 0 + size * k)] at this
        exact this)
      l₂ hm
    have hlen₂ : length = l₂.length := by
      have := mergePassAux_perm ascending cmp length size hs l 0
      rw [hm] at this
      rw [(this : l₂.Perm l).length_eq]
      exact hlen
    refine ih hlen₂ ?_ l' hok
    intro k
    have := hres k
    rw [(by ring : 2 * size * k = size * 2 * k),
      (by ring : 2 * size = size * 2)] at this
    exact this
  | case3 l size hs h =>
    intro hlen hblocks l' hok
    rw [mergeSizes, dif_neg h] at hok
    simp only [Except.ok.injEq] at hok
    subst hok
    have h0 := hblocks 0
    rw [Nat.mul_zero, List.drop_zero, List.take_of_length_le (by omega)] at h0
    exact h0

theorem mergesort_by_chain {ascending : Bool} {cmp : α → α → Ordering}
    (lc : LawfulCmp cmp) {l l' : List α}
    (hok : mergesort_by ascending cmp l = .ok l') :
    List.Chain' (inOrd ascending cmp) l' := by
  rw [mergesort_by] at hok
  by_cases h : l.length ≤ 1
  · rw [if_pos h] at hok
    simp only [Except.ok.injEq] at hok
    subst hok
    exact chain'_of_length_le_one h
  · rw [if_neg h] at hok
    exact mergeSizes_chain lc l.length l 1 (by omega) rfl
      (fun k => chain'_of_length_le_one (by simp)) l' hok

end MergeFamilyChain

end Algocol

namespace Algocol

section TimsortQsRecChain

variable {α : Type _}

theorem timRunsAux_chain {ascending : Bool} {cmp : α → α → Ordering}
    (lc : LawfulCmp cmp) (length run : Nat) (hr : 0 < run) :
    ∀ (l : List α) (offset : Nat),
      length = l.length →
      (∃ m, offset = run * m) →
      (∀ k, run * k < offset →
        List.Chain' (inOrd ascending cmp) ((l.drop (run * k)).take run)) →
      ∀ l', timRunsAux ascending cmp length run hr l offset = .ok l' →
        ∀ k, List.Chain' (inOrd ascending cmp) ((l'.drop (run * k)).take run) := by
  intro l offset
  induction l, offset using timRunsAux.induct ascending cmp length run hr with
  | case1 l offset h stop hl s hins =>
    intro hlen halign hpre l' hok
    rw [timRunsAux, dif_pos h] at hok
    dsimp only at hok
    rw [hins] at hok
    simp at hok
  | case2 l offset h stop s hins ih =>
    intro hlen halign hpre l' hok
    obtain ⟨m, hmv⟩ := halign
    rw [timRunsAux, dif_pos h] at hok
    dsimp only at hok
    rw [hins] at hok
    dsimp only at hok
    have hslen : s.length = min (offset + run) length - offset := by
      have := insertionsort_by_perm ascending cmp
        ((l.drop offset).take (min (offset + run) length - offset))
      rw [hins] at this
      rw [(this : s.Perm _).length_eq]
      simp
      omega
    have hAlen : (l.take offset).length = offset := by
      simp
      omega
    have hlen₂ : length = (l.take offset ++ s ++ l.drop (min (offset + run) length)).length := by
      simp
      omega
    refine ih hlen₂ ⟨m + 1, by rw [hmv]; ring⟩ ?_ l' hok
    intro k hk
    have hkm : k ≤ m := by
      by_contra hn
      have h1 : run * (m + 1) ≤ run * k := Nat.mul_le_mul_left _ (by omega)
      have h2 : run * (m + 1) = run * m + run := by ring
      omega
    by_cases hke : k = m
    · subst hke
      have hstart : run * k = offset := hmv.symm
      rw [hstart, List.append_assoc, List.drop_left' hAlen]
      by_cases hc : offset + run ≤ length
      · have hsl : s.length = run := by omega
        rw [List.take_append_of_le_length (by omega), List.take_of_length_le (by omega)]
        exact insertionsort_by_chain lc hins
      · have hdr : l.drop (min (offset + run) length) = [] :=
          List.drop_eq_nil_of_le (by omega)
        rw [hdr, List.append_nil, List.take_of_length_le (by omega)]
        exact insertionsort_by_chain lc hins
    · have hkend : run * k + run ≤ offset := by
        have h1 : run * (k + 1) ≤ run * m := Nat.mul_le_mul_left _ (by omega)
        have h2 : run * (k + 1) = run * k + run := by ring
        omega
      rw [List.append_assoc,
        seg_append_left (by omega : run * k + run ≤ (l.take offset).length),
        seg_prefix (by omega : run * k + run ≤ offset)]
      exact hpre k (by omega)
  | case3 l offset h =>
    intro hlen halign hpre l' hok
    rw [timRunsAux, dif_neg h] at hok
    simp only [Except.ok.injEq] at hok
    subst hok
    intro k
    by_cases hk : run * k < offset
    · exact hpre k hk
    · rw [List.drop_eq_nil_of_le (by omega), List.take_nil]
      exact List.chain'_nil

theorem timsort_by_chain {ascending : Bool} {cmp : α → α → Ordering}
    (lc : LawfulCmp cmp) {l l' : List α} {run : Nat}
    (hok : timsort_by ascending cmp l run = .ok l') :
    List.Chain' (inOrd ascending cmp) l' := by
  rw [timsort_by] at hok
  by_cases h1 : l.length ≤ 1
  · rw [if_pos h1] at hok
    simp only [Except.ok.injEq] at hok
    subst hok
    exact chain'_of_length_le_one h1
  rw [if_neg h1] at hok
  by_cases h2 : l.length ≤ run
  · rw [if_pos h2] at hok
    exact insertionsort_by_chain lc hok
  rw [if_neg h2] at hok
  by_cases hr : 0 < run
  · rw [dif_pos hr] at hok
    match ht : timRunsAux ascending cmp l.length run hr l 0 with
    | .error e =>
      rw [ht] at hok
      simp at hok
    | .ok l₂ =>
      rw [ht] at hok
      dsimp only at hok
      have hblocks := timRunsAux_chain lc l.length run hr l 0 rfl ⟨0, by ring⟩
        (fun k hk => by omega) l₂ ht
      have hlen₂ : l.length = l₂.length := by
        have := timRunsAux_perm ascending cmp l.length run hr l 0
        rw [ht] at this
        rw [(this : l₂.Perm l).length_eq]
      exact mergeSizes_chain lc l.length l₂ run hr hlen₂ hblocks l' hok
  · rw [dif_neg hr] at hok
    simp at hok

theorem qsRecGo_chain {ascending : Bool} {cmp : α → α → Ordering}
    (lc : LawfulCmp cmp) :
    ∀ (fuel : Nat) (l : List α), ∀ l', qsRecGo ascending cmp fuel l = .ok l' →
      List.Chain' (inOrd ascending cmp) l' := by
  intro fuel
  induction fuel with
  | zero =>
    intro l l' hok
    simp only [qsRecGo] at hok
    simp at hok
  | succ n ih =>
    intro l l' hok
    rw [qsRecGo] at hok
    by_cases h : l.length ≤ 1
    · rw [if_pos h] at hok
      simp only [Except.ok.injEq] at hok
      subst hok
      exact chain'_of_length_le_one h
    rw [if_neg h] at hok
    match hp : partition ascending cmp l 0 l.length with
    | .error e =>
      rw [hp] at hok
      simp at hok
    | .ok (pivot, l₂) =>
      rw [hp] at hok
      dsimp only at hok
      obtain ⟨pv, B', hdrop, hBperm, hpart⟩ := @partition_spec _ ascending cmp l
        0 l.length (by omega) (by omega) (Nat.le_refl _)
      rw [hp] at hpart
      simp only [Except.ok.injEq, Prod.mk.injEq] at hpart
      obtain ⟨hpiv, hl₂⟩ := hpart
      simp only [List.take_zero, List.nil_append, List.drop_length, List.append_nil,
        List.drop_zero, Nat.sub_zero, Nat.zero_add] at hpiv hl₂
      set F := (l.take (l.length - 1)).filter
        (fun r => partCond ascending cmp r pv) with hFdef
      have hFlen : pivot = F.length := hpiv
      have htake : l₂.take pivot = F := by
        rw [hl₂, hFlen, List.take_left' rfl]
      have hdropP : l₂.drop pivot = pv :: B' := by
        rw [hl₂, hFlen, List.drop_left' rfl]
      have hdrop1 : l₂.drop (pivot + 1) = B' := by
        have he : F ++ pv :: B' = (F ++ [pv]) ++ B' := by simp
        rw [hl₂, he, List.drop_left' (by simp; omega)]
      have htake1 : (l₂.drop pivot).take 1 = [pv] := by
        rw [hdropP]
        rfl
      rw [htake, hdrop1, htake1] at hok
      match hr1 : qsRecGo ascending cmp n F with
      | .error (hl, s) =>
        rw [hr1] at hok
        simp at hok
      | .ok s₁ =>
        rw [hr1] at hok
        dsimp only at hok
        match hr2 : qsRecGo ascending cmp n B' with
        | .error (hl, s₂) =>
          rw [hr2] at hok
          simp at hok
        | .ok s₂ =>
          rw [hr2] at hok
          simp only [Except.ok.injEq] at hok
          have hc1 : List.Chain' (inOrd ascending cmp) s₁ := ih F s₁ hr1
          have hc2 : List.Chain' (inOrd ascending cmp) s₂ := ih B' s₂ hr2
          have hp1 : s₁.Perm F := by
            have := qsRecGo_perm ascending cmp n F
            rw [hr1] at this
            exact this
          have hp2 : s₂.Perm B' := by
            have := qsRecGo_perm ascending cmp n B'
            rw [hr2] at this
            exact this
          rw [← hok, List.append_assoc]
          rw [List.chain'_append]
          refine ⟨hc1, ?_, ?_⟩
          · rw [List.singleton_append, List.chain'_cons']
            refine ⟨?_, hc2⟩
            intro y hy
            have hyB : y ∈ B' := hp2.mem_iff.mp (List.mem_of_mem_head? hy)
            have := hBperm.mem_iff.mp hyB
            have hyc := List.of_mem_filter this
            simp only [Bool.not_eq_true'] at hyc
            exact partCond_false_inOrd lc hyc
          · intro x hx y hy
            have hxF : x ∈ F := hp1.mem_iff.mp (mem_of_getLast? hx)
            have hxc := List.of_mem_filter hxF
            rw [List.singleton_append, List.head?_cons] at hy
            simp only [Option.mem_def, Option.some.injEq] at hy
            rw [← hy]
            exact partCond_inOrd ascending cmp hxc

theorem quicksort_recursively_by_chain {ascending : Bool} {cmp : α → α → Ordering}
    (lc : LawfulCmp cmp) {l l' : List α}
    (hok : quicksort_recursively_by ascending cmp l = .ok l') :
    List.Chain' (inOrd ascending cmp) l' := by
  rw [quicksort_recursively_by] at hok
  exact qsRecGo_chain lc (l.length + 1) l l' hok

end TimsortQsRecChain

end Algocol

namespace Algocol

section QsIterChain

variable {α : Type _}

theorem mem_take_drop_pos {l : List α} {s n : Nat} {a : α}
    (h : a ∈ (l.drop s).take n) : ∃ i, s ≤ i ∧ i < s + n ∧ l[i]? = some a := by
  rw [List.mem_iff_getElem?] at h
  obtain ⟨k, hk⟩ := h
  rw [List.getElem?_take] at hk
  split at hk
  · rw [List.getElem?_drop] at hk
    exact ⟨s + k, by omega, by omega, hk⟩
  · simp at hk

theorem qsLoop_chain {ascending : Bool} {cmp : α → α → Ordering}
    (lc : LawfulCmp cmp) :
    ∀ (fuel : Nat) (l : List α) (stack : List (Nat × Nat)),
      2 ≤ l.length →
      (∀ q ∈ stack, q.1 ≤ q.2 ∧ q.2 < l.length) →
      List.Pairwise (fun q r => q.2 < r.1 ∨ r.2 < q.1) stack →
      (∀ i j a b, i < j → j < l.length →
        (¬ ∃ q, q ∈ stack ∧ q.1 ≤ i ∧ j ≤ q.2) →
        l[i]? = some a → l[j]? = some b → inOrd ascending cmp a b) →
      ∀ l', qsLoop ascending cmp fuel l stack = .ok l' →
        List.Chain' (inOrd ascending cmp) l' := by
  intro fuel
  induction fuel with
  | zero =>
    intro l stack h2 hbounds hdisj hQ l' hok
    simp only [qsLoop] at hok
    simp at hok
  | succ n ih =>
    intro l stack h2 hbounds hdisj hQ l' hok
    match stack with
    | [] =>
      simp only [qsLoop] at hok
      simp only [Except.ok.injEq] at hok
      subst hok
      rw [chain'_iff_getElem?]
      intro i a b ha hb
      have hjb : i + 1 < l.length := by
        by_contra hn
        rw [List.getElem?_eq_none (by omega)] at hb
        simp at hb
      refine hQ i (i+1) a b (by omega) hjb ?_ ha hb
      rintro ⟨q, hq, _⟩
      exact List.not_mem_nil q hq
    | (st, en) :: rest =>
      rw [qsLoop] at hok
      match hp : partition ascending cmp l st (en + 1) with
      | .error e =>
        rw [hp] at hok
        simp at hok
      | .ok (piv, l₂) =>
        rw [hp] at hok
        dsimp only at hok
        obtain ⟨hse, henl⟩ := hbounds (st, en) (List.mem_cons_self _ _)
        have hd_head : ∀ q ∈ rest, en < q.1 ∨ q.2 < st := by
          have := (List.pairwise_cons.mp hdisj).1
          exact this
        have hdisj_rest : List.Pairwise (fun q r => q.2 < r.1 ∨ r.2 < q.1) rest :=
          (List.pairwise_cons.mp hdisj).2
        obtain ⟨pvϟ, B', hdropv, hBperm, hpart⟩ := @partition_spec _ ascending cmp l
          st (en + 1) h2 (by omega) (by omega)
        rw [hp] at hpart
        simp only [Except.ok.injEq, Prod.mk.injEq] at hpart
        obtain ⟨hpiv, hl₂⟩ := hpart
        simp only [Nat.add_sub_cancel] at hpiv hl₂ hBperm hdropv
        have hpb := partition_ok_bounds ascending cmp h2 (by omega : st < en + 1) hp
        simp only [Nat.add_sub_cancel] at hpb
        obtain ⟨hstp, hpen, hlen₂⟩ := hpb
        set R := (l.drop st).take (en - st) with hRdef
        set F := R.filter (fun r => partCond ascending cmp r pvϟ) with hFdef
        have hRlen : R.length = en - st := by
          rw [hRdef]
          simp
          omega
        have hFBlen : F.length
            + (R.filter (fun r => !(partCond ascending cmp r pvϟ))).length = R.length := by
          have := (List.filter_append_perm
            (fun r => partCond ascending cmp r pvϟ) R).length_eq
          simpa [hFdef] using this
        have hB'len : B'.length = (R.filter (fun r => !(partCond ascending cmp r pvϟ))).length :=
          hBperm.length_eq
        have hFlen : F.length = piv - st := by omega
        have hAlen : (l.take st).length = st := by
          simp
          omega
        have hpvpos : l[en]? = some pvϟ := by
          have h0 := List.getElem?_drop l en 0
          rw [hdropv] at h0
          simpa using h0.symm
        have hg_low : ∀ i, i < st → l₂[i]? = l[i]? := by
          intro i hi
          rw [hl₂, List.append_assoc, List.getElem?_append_left (by omega),
            List.getElem?_take, if_pos hi]
        have hg_F : ∀ i, st ≤ i → i < piv → ∃ a, l₂[i]? = some a ∧ a ∈ F := by
          intro i h1 hip
          rw [hl₂, List.append_assoc,
            List.getElem?_append_right (by omega : (l.take st).length ≤ i),
            List.getElem?_append_left (by rw [hAlen]; omega)]
          have hiF : i - (l.take st).length < F.length := by rw [hAlen]; omega
          rw [List.getElem?_eq_getElem hiF]
          exact ⟨F[i - (l.take st).length], rfl, List.getElem_mem _⟩
        have hg_pv : l₂[piv]? = some pvϟ := by
          rw [hl₂, List.append_assoc,
            List.getElem?_append_right (by omega : (l.take st).length ≤ piv),
            List.getElem?_append_right (by rw [hAlen]; omega)]
          rw [hAlen]
          have : piv - st - F.length = 0 := by omega
          rw [this]
          simp
        have hg_B : ∀ i, piv < i → i ≤ en → ∃ b, l₂[i]? = some b ∧ b ∈ B' := by
          intro i hpi hien
          have he : l.take st ++ F ++ pvϟ :: (B' ++ l.drop (en + 1))
              = (l.take st ++ F ++ [pvϟ]) ++ (B' ++ l.drop (en + 1)) := by simp
          rw [hl₂, he,
            List.getElem?_append_right (by simp [hAlen]; omega),
            List.getElem?_append_left (by simp [hAlen]; omega)]
          have hiB : i - (l.take st ++ F ++ [pvϟ]).length < B'.length := by
            simp [hAlen]
            omega
          rw [List.getElem?_eq_getElem hiB]
          exact ⟨B'[i - (l.take st ++ F ++ [pvϟ]).length], rfl, List.getElem_mem _⟩
        have hg_high : ∀ i, en < i → l₂[i]? = l[i]? := by
          intro i hi
          have he : l.take st ++ F ++ pvϟ :: (B' ++ l.drop (en + 1))
              = (l.take st ++ F ++ pvϟ :: B') ++ l.drop (en + 1) := by simp
          have hplen : (l.take st ++ F ++ pvϟ :: B').length = en + 1 := by
            simp [hAlen]
            omega
          rw [hl₂, he, List.getElem?_append_right (by omega : (l.take st ++ F ++ pvϟ :: B').length ≤ i),
            List.getElem?_drop, hplen]
          congr 1
          omega
        have hF_pos : ∀ a ∈ F, partCond ascending cmp a pvϟ = true := by
          intro a ha
          rw [hFdef] at ha
          have := List.of_mem_filter ha
          simpa using this
        have hB_neg : ∀ b ∈ B', partCond ascending cmp b pvϟ = false := by
          intro b hb
          have := List.of_mem_filter (hBperm.mem_iff.mp hb)
          simpa using this
        have hR_pos : ∀ a ∈ R, ∃ i', st ≤ i' ∧ i' ≤ en ∧ l[i']? = some a := by
          intro a ha
          obtain ⟨i', h1, h2', h3⟩ := mem_take_drop_pos (hRdef ▸ ha)
          exact ⟨i', h1, by omega, h3⟩
        have hval_seg : ∀ i x, st ≤ i → i ≤ en → l₂[i]? = some x →
            ∃ i', st ≤ i' ∧ i' ≤ en ∧ l[i']? = some x := by
          intro i x h1 h2' hx
          by_cases hip : i < piv
          · obtain ⟨a2, ha2, haF⟩ := hg_F i h1 hip
            rw [ha2] at hx
            injection hx with hx
            rw [hx] at haF
            rw [hFdef] at haF
            exact hR_pos x (List.mem_of_mem_filter haF)
          by_cases hie : i = piv
          · subst hie
            rw [hg_pv] at hx
            injection hx with hx
            rw [hx] at hpvpos
            exact ⟨en, by omega, by omega, hpvpos⟩
          · obtain ⟨b2, hb2, hbB⟩ := hg_B i (by omega) h2'
            rw [hb2] at hx
            injection hx with hx
            rw [hx] at hbB
            exact hR_pos x (List.mem_of_mem_filter (hBperm.mem_iff.mp hbB))
        have hlen₂' : 2 ≤ l₂.length := by omega
        have hQfull : ∀ i j a b, i < j → j < l₂.length →
            (¬ ∃ q, q ∈ (piv + 1, en) :: (st, piv - 1) :: rest ∧ q.1 ≤ i ∧ j ≤ q.2) →
            l₂[i]? = some a → l₂[j]? = some b → inOrd ascending cmp a b := by
          intro i j a b hij hjl hnco hai hbj
          have hjl' : j < l.length := by omega
          by_cases hi_en : i ≤ en
          · by_cases hi_st : st ≤ i
            · -- i inside the popped segment
              by_cases hj_en : j ≤ en
              · -- both inside: use the partition characterization
                have hj_st : st ≤ j := by omega
                by_cases hip : i < piv
                · obtain ⟨a2, ha2, haF⟩ := hg_F i hi_st hip
                  rw [ha2] at hai
                  injection hai with hai
                  rw [hai] at haF
                  have hapv : inOrd ascending cmp a pvϟ :=
                    partCond_inOrd ascending cmp (hF_pos a haF)
                  by_cases hjp : j < piv
                  · exfalso
                    exact hnco ⟨(st, piv - 1), by simp, by simp; omega⟩
                  by_cases hje : j = piv
                  · subst hje
                    rw [hg_pv] at hbj
                    injection hbj with hbj
                    rw [← hbj]
                    exact hapv
                  · obtain ⟨b2, hb2, hbB⟩ := hg_B j (by omega) hj_en
                    rw [hb2] at hbj
                    injection hbj with hbj
                    rw [hbj] at hbB
                    exact lc.inOrd_trans hapv (partCond_false_inOrd lc (hB_neg b hbB))
                by_cases hie : i = piv
                · subst hie
                  rw [hg_pv] at hai
                  injection hai with hai
                  obtain ⟨b2, hb2, hbB⟩ := hg_B j (by omega) hj_en
                  rw [hb2] at hbj
                  injection hbj with hbj
                  rw [hbj] at hbB
                  rw [← hai]
                  exact partCond_false_inOrd lc (hB_neg b hbB)
                · exfalso
                  exact hnco ⟨(piv + 1, en), by simp, by simp; omega⟩
              · -- i in segment, j above it
                rw [hg_high j (by omega)] at hbj
                obtain ⟨i', h1, h2', h3⟩ := hval_seg i a hi_st hi_en hai
                refine hQ i' j a b (by omega) hjl' ?_ h3 hbj
                rintro ⟨q, hq, hq1, hq2⟩
                rcases List.mem_cons.mp hq with rfl | hqr
                · simp at hq1 hq2
                  omega
                · rcases hd_head q hqr with hcase | hcase
                  · omega
                  · omega
            · -- i below the segment
              rw [hg_low i (by omega)] at hai
              by_cases hj_st : j < st
              · rw [hg_low j hj_st] at hbj
                refine hQ i j a b hij hjl' ?_ hai hbj
                rintro ⟨q, hq, hq1, hq2⟩
                rcases List.mem_cons.mp hq with rfl | hqr
                · simp at hq1 hq2
                  omega
                · exact hnco ⟨q, by simp [hqr], hq1, hq2⟩
              · -- j inside the segment (j ≤ en here since i ≤ en... j may exceed en)
                by_cases hj_en : j ≤ en
                · obtain ⟨j', h1, h2', h3⟩ := hval_seg j b (by omega) hj_en hbj
                  refine hQ i j' a b (by omega) (by omega) ?_ hai h3
                  rintro ⟨q, hq, hq1, hq2⟩
                  rcases List.mem_cons.mp hq with rfl | hqr
                  · simp at hq1 hq2
                    omega
                  · rcases hd_head q hqr with hcase | hcase
                    · omega
                    · omega
                · rw [hg_high j (by omega)] at hbj
                  refine hQ i j a b hij hjl' ?_ hai hbj
                  rintro ⟨q, hq, hq1, hq2⟩
                  rcases List.mem_cons.mp hq with rfl | hqr
                  · simp at hq1 hq2
                    omega
                  · exact hnco ⟨q, by simp [hqr], hq1, hq2⟩
          · -- i above the segment, hence j too
            rw [hg_high i (by omega)] at hai
            rw [hg_high j (by omega)] at hbj
            refine hQ i j a b hij hjl' ?_ hai hbj
            rintro ⟨q, hq, hq1, hq2⟩
            rcases List.mem_cons.mp hq with rfl | hqr
            · simp at hq1 hq2
              omega
            · exact hnco ⟨q, by simp [hqr], hq1, hq2⟩
        have hbounds_rest : ∀ q ∈ rest, q.1 ≤ q.2 ∧ q.2 < l₂.length := by
          intro q hq
          have := hbounds q (List.mem_cons_of_mem _ hq)
          omega
        have hd_head' : ∀ q ∈ rest, ∀ s' e', st ≤ s' → e' ≤ en →
            e' < q.1 ∨ q.2 < s' := by
          intro q hq s' e' hs' he'
          rcases hd_head q hq with hcase | hcase
          · left; omega
          · right; omega
        by_cases hc1 : piv + 1 < en <;> by_cases hc2 : piv > st + 1
        · rw [if_pos hc2, if_pos hc1] at hok
          refine ih l₂ ((piv + 1, en) :: (st, piv - 1) :: rest) hlen₂' ?_ ?_ hQfull l' hok
          · intro q hq
            rcases List.mem_cons.mp hq with rfl | hq
            · constructor
              · simp; omega
              · simp; omega
            rcases List.mem_cons.mp hq with rfl | hq
            · constructor
              · simp; omega
              · simp; omega
            · exact hbounds_rest q hq
          · refine List.pairwise_cons.mpr ⟨?_, List.pairwise_cons.mpr ⟨?_, hdisj_rest⟩⟩
            · intro q hq
              rcases List.mem_cons.mp hq with rfl | hq
              · right; simp; omega
              · exact hd_head' q hq (piv + 1) en (by omega) (by omega)
            · intro q hq
              exact hd_head' q hq st (piv - 1) (by omega) (by omega)
        · rw [if_neg hc2, if_pos hc1] at hok
          refine ih l₂ ((piv + 1, en) :: rest) hlen₂' ?_ ?_ ?_ l' hok
          · intro q hq
            rcases List.mem_cons.mp hq with rfl | hq
            · constructor
              · simp; omega
              · simp; omega
            · exact hbounds_rest q hq
          · refine List.pairwise_cons.mpr ⟨?_, hdisj_rest⟩
            intro q hq
            exact hd_head' q hq (piv + 1) en (by omega) (by omega)
          · intro i j a b hij hjl hnco hai hbj
            refine hQfull i j a b hij hjl ?_ hai hbj
            rintro ⟨q, hq, hq1, hq2⟩
            rcases List.mem_cons.mp hq with rfl | hq
            · exact hnco ⟨(piv + 1, en), by simp, hq1, hq2⟩
            rcases List.mem_cons.mp hq with rfl | hq
            · simp at hq1 hq2
              omega
            · exact hnco ⟨q, by simp [hq], hq1, hq2⟩
        · rw [if_pos hc2, if_neg hc1] at hok
          refine ih l₂ ((st, piv - 1) :: rest) hlen₂' ?_ ?_ ?_ l' hok
          · intro q hq
            rcases List.mem_cons.mp hq with rfl | hq
            · constructor
              · simp; omega
              · simp; omega
            · exact hbounds_rest q hq
          · refine List.pairwise_cons.mpr ⟨?_, hdisj_rest⟩
            intro q hq
            exact hd_head' q hq st (piv - 1) (by omega) (by omega)
          · intro i j a b hij hjl hnco hai hbj
            refine hQfull i j a b hij hjl ?_ hai hbj
            rintro ⟨q, hq, hq1, hq2⟩
            rcases List.mem_cons.mp hq with rfl | hq
            · simp at hq1 hq2
              omega
            rcases List.mem_cons.mp hq with rfl | hq
            · exact hnco ⟨(st, piv - 1), by simp, hq1, hq2⟩
            · exact hnco ⟨q, by simp [hq], hq1, hq2⟩
        · rw [if_neg hc2, if_neg hc1] at hok
          refine ih l₂ rest hlen₂' hbounds_rest hdisj_rest ?_ l' hok
          intro i j a b hij hjl hnco hai hbj
          refine hQfull i j a b hij hjl ?_ hai hbj
          rintro ⟨q, hq, hq1, hq2⟩
          rcases List.mem_cons.mp hq with rfl | hq
          · simp at hq1 hq2
            omega
          rcases List.mem_cons.mp hq with rfl | hq
          · simp at hq1 hq2
            omega
          · exact hnco ⟨q, hq, hq1, hq2⟩

theorem quicksort_by_chain {ascending : Bool} {cmp : α → α → Ordering}
    (lc : LawfulCmp cmp) {l l' : List α}
    (hok : quicksort_by ascending cmp l = .ok l') :
    List.Chain' (inOrd ascending cmp) l' := by
  rw [quicksort_by] at hok
  by_cases h : l.length ≤ 1
  · rw [if_pos h] at hok
    simp only [Except.ok.injEq] at hok
    subst hok
    exact chain'_of_length_le_one h
  · rw [if_neg h] at hok
    refine qsLoop_chain lc (l.length + 1) l [(0, l.length - 1)] (by omega) ?_ ?_ ?_ l' hok
    · intro q hq
      rcases List.mem_cons.mp hq with rfl | hq
      · exact ⟨by simp, by simp; omega⟩
      · simp at hq
    · exact List.pairwise_cons.mpr ⟨fun q hq => by simp at hq, List.Pairwise.nil⟩
    · intro i j a b hij hjl hnco hai hbj
      exfalso
      exact hnco ⟨(0, l.length - 1), List.mem_cons_self _ _, by simp, by simp; omega⟩

end QsIterChain

end Algocol

namespace Algocol

/-- C1: for every slice, every direction, every run size, and every comparator
consistent with a total order (`LawfulCmp`; `compare` of a linear order for
the plain variants), each sort entry point — `bubblesort`, `insertionsort`,
`selectionsort`, `mergesort`, `mergesort_recursively`, `quicksort`,
`quicksort_recursively`, `timsort`, and their `_by` variants — that returns
`Ok` leaves the slice in a state on which `is_sorted` / `is_sorted_by` with
the same direction returns `true`. -/
theorem claim_C1_sorts_sorted {α β : Type} [LinearOrder β]
    (ascending : Bool) (cmp : α → α → Ordering) (lc : LawfulCmp cmp) :
    (∀ l l' : List α, bubblesort_by ascending cmp l = .ok l' →
      is_sorted_by l' ascending cmp = true) ∧
    (∀ l l' : List α, insertionsort_by ascending cmp l = .ok l' →
      is_sorted_by l' ascending cmp = true) ∧
    (∀ l l' : List α, selectionsort_by ascending cmp l = .ok l' →
      is_sorted_by l' ascending cmp = true) ∧
    (∀ l l' : List α, mergesort_by ascending cmp l = .ok l' →
      is_sorted_by l' ascending cmp = true) ∧
    (∀ l l' : List α, mergesort_recursively_by ascending cmp l = .ok l' →
      is_sorted_by l' ascending cmp = true) ∧
    (∀ l l' : List α, quicksort_by ascending cmp l = .ok l' →
      is_sorted_by l' ascending cmp = true) ∧
    (∀ l l' : List α, quicksort_recursively_by ascending cmp l = .ok l' →
      is_sorted_by l' ascending cmp = true) ∧
    (∀ (run : Nat) (l l' : List α), timsort_by ascending cmp l run = .ok l' →
      is_sorted_by l' ascending cmp = true) ∧
    (∀ lb lb' : List β, bubblesort lb ascending = .ok lb' →
      is_sorted lb' ascending = true) ∧
    (∀ lb lb' : List β, insertionsort lb ascending = .ok lb' →
      is_sorted lb' ascending = true) ∧
    (∀ lb lb' : List β, selectionsort lb ascending = .ok lb' →
      is_sorted lb' ascending = true) ∧
    (∀ lb lb' : List β, mergesort lb ascending = .ok lb' →
      is_sorted lb' ascending = true) ∧
    (∀ lb lb' : List β, mergesort_recursively lb ascending = .ok lb' →
      is_sorted lb' ascending = true) ∧
    (∀ lb lb' : List β, quicksort lb ascending = .ok lb' →
      is_sorted lb' ascending = true) ∧
    (∀ lb lb' : List β, quicksort_recursively lb ascending = .ok lb' →
      is_sorted lb' ascending = true) ∧
    (∀ (run : Nat) (lb lb' : List β), timsort lb ascending run = .ok lb' →
      is_sorted lb' ascending = true) := by
  have lcb : LawfulCmp (fun a b : β => compare a b) := lawfulCmp_compare
  refine ⟨?_, ?_, ?_, ?_, ?_, ?_, ?_, ?_, ?_, ?_, ?_, ?_, ?_, ?_, ?_, ?_⟩
  · intro l l' hok
    exact (is_sorted_by_iff_chain' l' ascending cmp).mpr (bubblesort_by_chain ascending cmp hok)
  · intro l l' hok
    exact (is_sorted_by_iff_chain' l' ascending cmp).mpr (insertionsort_by_chain lc hok)
  · intro l l' hok
    exact (is_sorted_by_iff_chain' l' ascending cmp).mpr (selectionsort_by_chain lc hok)
  · intro l l' hok
    exact (is_sorted_by_iff_chain' l' ascending cmp).mpr (mergesort_by_chain lc hok)
  · intro l l' hok
    exact (is_sorted_by_iff_chain' l' ascending cmp).mpr
      (mergesort_recursively_by_chain lc l l' hok)
  · intro l l' hok
    exact (is_sorted_by_iff_chain' l' ascending cmp).mpr (quicksort_by_chain lc hok)
  · intro l l' hok
    exact (is_sorted_by_iff_chain' l' ascending cmp).mpr
      (quicksort_recursively_by_chain lc hok)
  · intro run l l' hok
    exact (is_sorted_by_iff_chain' l' ascending cmp).mpr (timsort_by_chain lc hok)
  · intro lb lb' hok
    exact (is_sorted_by_iff_chain' lb' ascending compare).mpr
      (bubblesort_by_chain ascending compare hok)
  · intro lb lb' hok
    exact (is_sorted_by_iff_chain' lb' ascending compare).mpr
      (insertionsort_by_chain lcb hok)
  · intro lb lb' hok
    exact (is_sorted_by_iff_chain' lb' ascending compare).mpr
      (selectionsort_by_chain lcb hok)
  · intro lb lb' hok
    exact (is_sorted_by_iff_chain' lb' ascending compare).mpr
      (mergesort_by_chain lcb hok)
  · intro lb lb' hok
    exact (is_sorted_by_iff_chain' lb' ascending compare).mpr
      (mergesort_recursively_by_chain lcb lb lb' hok)
  · intro lb lb' hok
    exact (is_sorted_by_iff_chain' lb' ascending compare).mpr
      (quicksort_by_chain lcb hok)
  · intro lb lb' hok
    exact (is_sorted_by_iff_chain' lb' ascending compare).mpr
      (quicksort_recursively_by_chain lcb hok)
  · intro run lb lb' hok
    exact (is_sorted_by_iff_chain' lb' ascending compare).mpr
      (timsort_by_chain lcb hok)

/-- Witness for `claim_C1_sorts_sorted` at the lawful comparator
`compare` on `ℤ`, ascending. -/
theorem claim_C1_witness :
    (∀ l l' : List ℤ, bubblesort_by true compare l = .ok l' →
      is_sorted_by l' true compare = true) ∧
    (∀ l l' : List ℤ, insertionsort_by true compare l = .ok l' →
      is_sorted_by l' true compare = true) ∧
    (∀ l l' : List ℤ, selectionsort_by true compare l = .ok l' →
      is_sorted_by l' true compare = true) ∧
    (∀ l l' : List ℤ, mergesort_by true compare l = .ok l' →
      is_sorted_by l' true compare = true) ∧
    (∀ l l' : List ℤ, mergesort_recursively_by true compare l = .ok l' →
      is_sorted_by l' true compare = true) ∧
    (∀ l l' : List ℤ, quicksort_by true compare l = .ok l' →
      is_sorted_by l' true compare = true) ∧
    (∀ l l' : List ℤ, quicksort_recursively_by true compare l = .ok l' →
      is_sorted_by l' true compare = true) ∧
    (∀ (run : Nat) (l l' : List ℤ), timsort_by true compare l run = .ok l' →
      is_sorted_by l' true compare = true) ∧
    (∀ lb lb' : List ℤ, bubblesort lb true = .ok lb' →
      is_sorted lb' true = true) ∧
    (∀ lb lb' : List ℤ, insertionsort lb true = .ok lb' →
      is_sorted lb' true = true) ∧
    (∀ lb lb' : List ℤ, selectionsort lb true = .ok lb' →
      is_sorted lb' true = true) ∧
    (∀ lb lb' : List ℤ, mergesort lb true = .ok lb' →
      is_sorted lb' true = true) ∧
    (∀ lb lb' : List ℤ, mergesort_recursively lb true = .ok lb' →
      is_sorted lb' true = true) ∧
    (∀ lb lb' : List ℤ, quicksort lb true = .ok lb' →
      is_sorted lb' true = true) ∧
    (∀ lb lb' : List ℤ, quicksort_recursively lb true = .ok lb' →
      is_sorted lb' true = true) ∧
    (∀ (run : Nat) (lb lb' : List ℤ), timsort lb true run = .ok lb' →
      is_sorted lb' true = true) :=
  claim_C1_sorts_sorted (β := ℤ) true compare lawfulCmp_compare

end Algocol
